import Mathlib

/-!
# PDGF instrumentation pass (`afl-2.57b/llvm_mode/afl-llvm-pass.so.cc`)

A shallow embedding of `AFLCoverage::runOnModule`, `getDebugLoc`, `BFS` and
`AFLCoverage::getBlockInfo`.

Modelling conventions

* `std::string` is `List Char` (`Str`); `find_last_of`, `substr`, `compare`
  are the list functions below.
* A `BasicBlock*` is a natural number (the address of the block).  A module is
  a finite list of functions, a function a finite list of blocks, and every
  block carries its instructions, the successor list of its terminator (empty
  when the block has no terminator) and its predecessor list.
* `random()` is the stream `Env.random`; the pass state counts the draws.
* `llvm::SplitEdge` is LLVM library code.  Its result (a new block or
  `NULL`) is `Env.SplitEdge`.  In `runOnModule` every read of the
  control-flow graph is answered by the function as it was handed to the
  pass.  `runOnModuleLive` threads the body of the function through the
  calls, a `Rewire` giving the body after each call, so that the edge loop
  reads the successors as the earlier splits left them; the two runs agree
  when the calls leave the body as it is (`runOnModuleLive_unrewritten`).
* `std::set<BasicBlock*>` is a list kept in address order.
* The two output files are the lists `fdom` (edge map) and `fdom2`
  (reachable-block list) of the records appended by the run.
* Of the instructions the pass emits, the state keeps where they go:
  `counters` lists the blocks that receive a counter update, with the edge
  id, and `sinks` the blocks that receive the `printf`/`exit` pair.  The
  banner, `AFL_QUIET` and `AFL_INST_RATIO` play no part in what is written
  and are left out.
-/

namespace PDGF

/-! ## Strings -/

/-- A `std::string`. -/
abbrev Str := List Char

/-- The C++ call `s.find_last_of(chars)`: the index of the last character of
`s` that occurs in `chars`, `none` standing for `std::string::npos`. -/
def find_last_of : Str → List Char → Option Nat
  | [], _ => none
  | c :: s, chars =>
    match find_last_of s chars with
    | some i => some (i + 1)
    | none => if c ∈ chars then some 0 else none

/-- The characters searched by `find_last_of("/\\")`. -/
def slashes : List Char := ['/', Char.ofNat 92]

/-- The colon searched by `find_last_of(":")`. -/
def colon : List Char := [':']

/-- The statement pair
`found = s.find_last_of("/\\"); if (found != npos) s = s.substr(found + 1);`. -/
def stripDir (s : Str) : Str :=
  match find_last_of s slashes with
  | some found => s.drop (found + 1)
  | none => s

/-- The constant `Xlibs("/usr/")`. -/
def Xlibs : Str := ['/', 'u', 's', 'r', '/']

/-- The test `!s.compare(0, t.size(), t)`: true when the first `t.size()`
characters of `s` are exactly `t`. -/
def compare0 (s t : Str) : Bool := s.take t.length == t

/-- The C predicate `isspace` in the "C" locale. -/
def isspace (c : Char) : Bool := c.toNat == 32 || (9 ≤ c.toNat && c.toNat ≤ 13)

/-- Value of the leading run of decimal digits of `s`. -/
def digitsVal (s : Str) : Nat :=
  (s.takeWhile Char.isDigit).foldl (fun acc c => 10 * acc + (c.toNat - 48)) 0

/-- The value `strtol(s, NULL, 10)` before saturation: optional white space,
optional sign, decimal digits. -/
def strtolValue (s : Str) : Int :=
  match s.dropWhile isspace with
  | '-' :: r => - (digitsVal r : Int)
  | '+' :: r => (digitsVal r : Int)
  | r => (digitsVal r : Int)

/-- The libc function `atoi`, computed as glibc does, through `strtol`: the
value saturates at `LONG_MAX` and `LONG_MIN` (64 bits); the conversion of the
`long` to `int` and then to `unsigned` keeps its low 32 bits (`toUnsigned`).
Values outside the range of `int` are undefined in C. -/
def atoi (s : Str) : Int :=
  if strtolValue s > 2 ^ 63 - 1 then 2 ^ 63 - 1
  else if strtolValue s < -(2 ^ 63) then -(2 ^ 63)
  else strtolValue s

/-- Conversion of an integer value to `unsigned int`: its low 32 bits. -/
def toUnsigned (i : Int) : Nat := (i % (2 ^ 32 : Int)).toNat

/-- The function `std::to_string` on an unsigned value. -/
def to_string (n : Nat) : Str := Nat.toDigits 10 n

/-! ## The intermediate representation read by the pass -/

/-- What the pass reads of an `llvm::DILocation`: its line, its file name and,
of `getInlinedAt()`, the line and file name. -/
structure DILocation where
  Line : Nat
  Filename : Str
  InlinedAt : Option (Nat × Str)
deriving DecidableEq

/-- An instruction, reduced to `getDebugLoc()`. -/
structure Instruction where
  DebugLoc : Option DILocation
deriving DecidableEq

/-- A basic block: its address, its instructions, the successors of its
terminator in order, and its predecessors in `pred_begin` order. -/
structure BasicBlock where
  addr : Nat
  insts : List Instruction
  succs : List Nat
  preds : List Nat
deriving DecidableEq

/-- A function of the module. -/
structure Function where
  isDeclaration : Bool
  blocks : List BasicBlock
deriving DecidableEq

/-- A module. -/
structure Module where
  functions : List Function
deriving DecidableEq

/-- Every block of the module, function after function. -/
def Module.allBlocks (M : Module) : List BasicBlock :=
  (M.functions.map Function.blocks).flatten

/-- Dereferencing a `BasicBlock*`. -/
def Module.find (M : Module) (a : Nat) : Option BasicBlock :=
  M.allBlocks.find? (fun b => b.addr == a)

/-- The range `pred_begin(a) .. pred_end(a)`. -/
def Module.preds (M : Module) (a : Nat) : List Nat :=
  match M.find a with
  | some b => b.preds
  | none => []

/-- The value `a->size()`. -/
def Module.size (M : Module) (a : Nat) : Nat :=
  match M.find a with
  | some b => b.insts.length
  | none => 0

/-! ## `getDebugLoc` -/

/-- The function `getDebugLoc(I, Filename, Line)`; the two reference
parameters are returned. -/
def getDebugLoc (I : Instruction) (Filename : Str) (Line : Nat) : Str × Nat :=
  match I.DebugLoc with
  | none => (Filename, Line)
  | some Loc =>
    if Loc.Filename.isEmpty then
      match Loc.InlinedAt with
      | some (l, f) => (f, l)
      | none => (Loc.Filename, Loc.Line)
    else (Loc.Filename, Loc.Line)

/-! ## `BFS` -/

/-- The call `visited.insert(current)` on a `std::set<BasicBlock*>`. -/
def setInsert (a : Nat) (visited : List Nat) : List Nat :=
  if a ∈ visited then visited else List.orderedInsert (· ≤ ·) a visited

/-- The `while (!toVisit.empty())` loop of `BFS`, run for at most `fuel`
iterations; returns the queue and the visited set it stopped with. -/
def BFS_loop (M : Module) : Nat → List Nat → List Nat → List Nat × List Nat
  | 0, toVisit, visited => (toVisit, visited)
  | _ + 1, [], visited => ([], visited)
  | fuel + 1, current :: toVisit, visited =>
    if current ∈ visited then BFS_loop M fuel toVisit visited
    else
      BFS_loop M fuel
        (toVisit ++ (M.preds current).filter
          (fun Pred => decide (Pred ∉ setInsert current visited)))
        (setInsert current visited)

/-- A number of iterations after which the loop of `BFS` has always emptied
its queue: one for the seed and one for every predecessor edge. -/
def bfsFuel (M : Module) : Nat :=
  1 + (M.allBlocks.map (fun b => b.preds.length)).sum

/-- The function `BFS(Target)` on the global `visited`. -/
def BFS (M : Module) (Target : Nat) (visited : List Nat) : List Nat :=
  (BFS_loop M (bfsFuel M) [Target] visited).2

/-! ## The pass -/

/-- What the pass takes from outside the source file: the stream of values
returned by `random()`, the constant `MAP_SIZE` of `config.h`, and the result
of the `n`-th call of `llvm::SplitEdge` (`none` for `NULL`). -/
structure Env where
  random : Nat → Nat
  MAP_SIZE : Nat
  SplitEdge : Nat → Nat → Nat → Option Nat

/-- The record `struct BlockInfo`. -/
structure BlockInfo where
  BlockAddr : Nat
  BlockId : Nat
  BranchID : List Nat
deriving DecidableEq

/-- The members of `AFLCoverage`, the global `visited`, and the locals of
`runOnModule` that live across its loops. -/
structure PassState where
  AFLBlockInfoVec : List BlockInfo
  PBBid : List Nat
  TargetBBid : List Nat
  Id2target : List (Nat × List Str)
  visited : List Nat
  targets : List Str
  draws : Nat
  splits : Nat
  fdom : List (Nat × Nat × Nat)
  fdom2 : List Nat
  counters : List (Nat × Nat)
  sinks : List Nat
  inst_blocks : Nat
deriving DecidableEq

/-- Modelled from the spec: the macro `AFL_R` of the absent header, a draw
from `[0, MAP_SIZE)`; here the `k`-th value of `random()` reduced modulo
`MAP_SIZE`. -/
def AFL_R (env : Env) (k : Nat) : Nat := env.random k % env.MAP_SIZE

/-- The method `AFLCoverage::getBlockInfo`: the first record with the address
of the block, `none` for `nullptr`. -/
def getBlockInfo (vec : List BlockInfo) (BB : Nat) : Option BlockInfo :=
  vec.find? (fun I => I.BlockAddr == BB)

/-- The statement `Id2target[key].push_back(s)` on the `std::map`. -/
def Id2target_push : List (Nat × List Str) → Nat → Str → List (Nat × List Str)
  | [], key, s => [(key, [s])]
  | (k, v) :: rest, key, s =>
    if k = key then (k, v ++ [s]) :: rest else (k, v) :: Id2target_push rest key s

/-- The reading of the targets file: the lines that contain a colon. -/
def load_targets (lines : List Str) : List Str :=
  lines.filter (fun line => (find_last_of line colon).isSome)

/-- The statements of the `for (auto &target : targets)` body that rewrite
`target` in place. -/
def target_strip (target : Str) : Str := stripDir target

/-- The local `target_file`: `target.substr(0, pos)`, the whole string when
`pos` is `npos`. -/
def target_file (target : Str) : Str :=
  match find_last_of target colon with
  | some pos => target.take pos
  | none => target

/-- The local `target_line`: `atoi(target.substr(pos + 1).c_str())`; for
`pos == npos` the index `pos + 1` wraps to `0`. -/
def target_line (target : Str) : Nat :=
  match find_last_of target colon with
  | some pos => toUnsigned (atoi (target.drop (pos + 1)))
  | none => toUnsigned (atoi target)

/-- The statements run when a target matches: `TargetBBid.push_back(cur_loc)`,
`Id2target[cur_loc].push_back(...)` and `BFS(&BB)`. -/
def recordTarget (M : Module) (cur_loc BB : Nat) (curr_filename : Str) (curr_line : Nat)
    (st : PassState) : PassState :=
  { st with
    TargetBBid := st.TargetBBid ++ [cur_loc]
    Id2target := Id2target_push st.Id2target cur_loc
      (curr_filename ++ colon ++ to_string curr_line)
    visited := BFS M BB st.visited }

/-- The loop `for (auto &target : targets)` for one instruction of block `BB`
with id `cur_loc`: returns the rewritten list of targets and the new state. -/
def targetsLoop (M : Module) (cur_loc BB : Nat) (curr_filename : Str) (curr_line : Nat) :
    List Str → PassState → List Str × PassState
  | [], st => ([], st)
  | target :: rest, st =>
    let target := target_strip target
    let st :=
      if target_file target = curr_filename ∧ target_line target = curr_line then
        recordTarget M cur_loc BB curr_filename curr_line st
      else st
    let r := targetsLoop M cur_loc BB curr_filename curr_line rest st
    (target :: r.1, r.2)

/-- The body of `for (auto &I : BB)` after `getDebugLoc` has filled
`curr_filename` and `curr_line`: returns the two locals and the state. -/
def scanResolved (M : Module) (cur_loc BB : Nat) (curr_filename : Str) (curr_line : Nat)
    (st : PassState) : Str × Nat × PassState :=
  let curr_filename := stripDir curr_filename
  if curr_filename.isEmpty || curr_line == 0 || compare0 curr_filename Xlibs then
    (curr_filename, curr_line, st)
  else
    let r := targetsLoop M cur_loc BB curr_filename curr_line st.targets st
    (curr_filename, curr_line, { r.2 with targets := r.1 })

/-- One iteration of `for (auto &I : BB)`. -/
def scanInst (M : Module) (cur_loc BB : Nat) (acc : Str × Nat × PassState)
    (I : Instruction) : Str × Nat × PassState :=
  let loc := getDebugLoc I acc.1 acc.2.1
  scanResolved M cur_loc BB loc.1 loc.2 acc.2.2

/-- The number of successors `S` of the block with `S->size() > 0`. -/
def realSuccs (M : Module) (BB : BasicBlock) : Nat :=
  BB.succs.countP (fun S => decide (0 < M.size S))

/-- One iteration of `for (auto &BB : F)`: the local `InsBlocks` and the
state. -/
def scanBlock (env : Env) (M : Module) (F : Function)
    (acc : List BasicBlock × PassState) (BB : BasicBlock) : List BasicBlock × PassState :=
  if F.blocks.length ≠ 1 ∧ realSuccs M BB < 1 then acc
  else
    let st := acc.2
    let cur_loc := AFL_R env st.draws
    let st := { st with
      draws := st.draws + 1
      AFLBlockInfoVec := st.AFLBlockInfoVec ++ [⟨BB.addr, cur_loc, []⟩] }
    let r := BB.insts.foldl (scanInst M cur_loc BB.addr) ([], 0, st)
    (acc.1 ++ [BB], r.2.2)

/-- The local `SuccessorBBId`: the id found by `getBlockInfo`, `0` when the
pointer `ptrSuccessorBBInfo` is null. -/
def SuccessorBBId (vec : List BlockInfo) (Succ : Nat) : Nat :=
  match getBlockInfo vec Succ with
  | some info => info.BlockId
  | none => 0

/-- The tail of the body of the `j` loop: draw `cur_edge`, write the record
`cur_edge:CurrentBBid,SuccessorBBId` to the edge map, insert the counter
update into `newBB`, and count the location. -/
def recordEdge (env : Env) (newBB CurrentBBid SuccessorBBId : Nat) (st : PassState) :
    PassState :=
  let cur_edge := AFL_R env st.draws
  { st with
    draws := st.draws + 1
    fdom := st.fdom ++ [(cur_edge, CurrentBBid, SuccessorBBId)]
    counters := st.counters ++ [(newBB, cur_edge)]
    inst_blocks := st.inst_blocks + 1 }

/-- One more call of `llvm::SplitEdge` has been made. -/
def noteSplit (st : PassState) : PassState := { st with splits := st.splits + 1 }

/-- The loop `for (uint32_t j = 0; j < countto; j++)` of a block of a function
with more than one block, over the remaining entries of `Successors`. -/
def splitLoop (env : Env) (origBB CurrentBBid : Nat) : List Nat → PassState → PassState
  | [], st => st
  | Succ :: rest, st =>
    match env.SplitEdge st.splits origBB Succ with
    | none => splitLoop env origBB CurrentBBid rest (noteSplit st)
    | some newBB =>
      splitLoop env origBB CurrentBBid rest
        (recordEdge env newBB CurrentBBid (SuccessorBBId st.AFLBlockInfoVec Succ)
          (noteSplit st))

/-- The local `CurrentBBid` of the `do` loop: the id recorded for `origBB`.
The source reads it through the pointer returned by `getBlockInfo` without a
null test; every block on `InsBlocks` has a record (`scanBlocks_frame`), so
the value `0` written here for a null pointer is not taken in a run. -/
def CurrentBBid (vec : List BlockInfo) (origBB : Nat) : Nat :=
  match getBlockInfo vec origBB with
  | some info => info.BlockId
  | none => 0

/-- One iteration of the `do ... while (i > 0)` loop, for `origBB`. -/
def edgeIter (env : Env) (M : Module) (F : Function) (origBB : BasicBlock)
    (st : PassState) : PassState :=
  if realSuccs M origBB = 1 then st
  else if F.blocks.length = 1 then
    recordEdge env origBB.addr (CurrentBBid st.AFLBlockInfoVec origBB.addr) 0 st
  else if origBB.succs.length < 1 then st
  else if origBB.succs.length = 1 then st
  else splitLoop env origBB.addr (CurrentBBid st.AFLBlockInfoVec origBB.addr) origBB.succs st

/-- The `do ... while (i > 0)` loop: `InsBlocks` from last to first. -/
def edgeLoop (env : Env) (M : Module) (F : Function) (InsBlocks : List BasicBlock)
    (st : PassState) : PassState :=
  InsBlocks.reverse.foldl (fun st origBB => edgeIter env M F origBB st) st

/-- One iteration of `for (auto &F : M)`. -/
def runOnFunction (env : Env) (M : Module) (st : PassState) (F : Function) : PassState :=
  if !F.isDeclaration && !F.blocks.isEmpty then
    let r := F.blocks.foldl (scanBlock env M F) ([], st)
    edgeLoop env M F r.1 r.2
  else st

/-- One iteration of `for (auto &BB : visited)`. -/
def sinkIter (st : PassState) (BB : Nat) : PassState :=
  let st :=
    match getBlockInfo st.AFLBlockInfoVec BB with
    | some pbb => { st with fdom2 := st.fdom2 ++ [pbb.BlockId] }
    | none => st
  { st with sinks := st.sinks ++ [BB] }

/-- The state `runOnModule` starts from, given the lines of the targets file
and the contents of the global `visited`. -/
def initState (lines : List Str) (visited : List Nat) : PassState :=
  { AFLBlockInfoVec := [], PBBid := [], TargetBBid := [], Id2target := [],
    visited := visited, targets := load_targets lines, draws := 0, splits := 0,
    fdom := [], fdom2 := [], counters := [], sinks := [], inst_blocks := 0 }

/-- The state after the loop `for (auto &F : M)`. -/
def instrumentModule (env : Env) (M : Module) (st : PassState) : PassState :=
  M.functions.foldl (runOnFunction env M) st

/-- The method `AFLCoverage::runOnModule`. -/
def runOnModule (env : Env) (M : Module) (lines : List Str) (visited : List Nat) :
    PassState :=
  let st := instrumentModule env M (initState lines visited)
  st.visited.foldl sinkIter st

/-! ## Notions used in the statements -/

/-- Predecessor edges leaving blocks that are not yet visited. -/
def pendingEdges (L : List BasicBlock) (v : List Nat) : Nat :=
  ((L.filter (fun b => decide (b.addr ∉ v))).map (fun b => b.preds.length)).sum

/-- A set of blocks that contains the predecessors of its members. -/
def PredClosed (M : Module) (v : List Nat) : Prop :=
  ∀ x, x ∈ v → ∀ p, p ∈ M.preds x → p ∈ v

/-- The blocks `X` joined to `seed` by a chain of `N` predecessor edges:
`X = p_N`, `p_0 = seed`, and `p_{i+1}` is a direct predecessor of `p_i`. -/
def predChain (M : Module) : Nat → Nat → Nat → Prop
  | 0, seed, X => X = seed
  | N + 1, seed, X => ∃ Y, predChain M N seed Y ∧ X ∈ M.preds Y

/-- The global `visited` after `BFS` has been called on each seed in turn. -/
def BFS_all (M : Module) (seeds : List Nat) (visited : List Nat) : List Nat :=
  seeds.foldl (fun v s => BFS M s v) visited

/-- Two states that agree on everything but the text of the target entries,
which agree once their directory prefixes are removed. -/
def SameUpToTargets (s1 s2 : PassState) : Prop :=
  s1.targets.map target_strip = s2.targets.map target_strip ∧
    s1 = { s2 with targets := s1.targets }

/-! ## Concrete inputs -/

/-- A cyclic function: blocks 1 and 2 branch to each other, block 3 enters
the cycle and block 2 loops on itself. -/
def cycleModule : Module :=
  ⟨[⟨false, [⟨1, [], [2], [2, 3]⟩, ⟨2, [], [1, 2], [1, 2]⟩, ⟨3, [], [1], []⟩]⟩]⟩

/-- An instruction whose `DILocation` names `file` and `line`, not inlined. -/
def instAt (file : Str) (line : Nat) : Instruction := ⟨some ⟨line, file, none⟩⟩

/-- The file name `a.c`. -/
def a_c : Str := ['a', '.', 'c']

/-- The file name `foo.c`. -/
def foo_c : Str := ['f', 'o', 'o', '.', 'c']

/-- The path `/usr/include/foo.c`. -/
def usr_include_foo_c : Str :=
  ['/', 'u', 's', 'r', '/', 'i', 'n', 'c', 'l', 'u', 'd', 'e', '/', 'f', 'o', 'o', '.', 'c']

/-- A module whose only function has the single block `1`, with the given
instructions and no successor. -/
def oneBlockModule (insts : List Instruction) : Module :=
  ⟨[⟨false, [⟨1, insts, [], []⟩]⟩]⟩

/-- An environment with the draws `100, 101, ...`, `MAP_SIZE = 65536` and an
edge splitter that returns the block `1000 + n` at its `n`-th call. -/
def sampleEnv : Env := ⟨fun k => 100 + k, 65536, fun n _ _ => some (1000 + n)⟩

/-- A block with two successors, `2` (registered below) and `3` (not
registered), in a function of three blocks. -/
def branchBlock : BasicBlock := ⟨1, [instAt a_c 3], [2, 3], []⟩

/-- The function around `branchBlock`. -/
def branchFunction : Function :=
  ⟨false, [branchBlock, ⟨2, [instAt a_c 5], [3], [1]⟩, ⟨3, [instAt a_c 7], [], [1, 2]⟩]⟩

/-- The state in which blocks `1` and `2` are registered with the ids `100`
and `101` and two draws have been made. -/
def branchState : PassState :=
  { initState [] [] with
    AFLBlockInfoVec := [⟨1, 100, []⟩, ⟨2, 101, []⟩], draws := 2 }

/-- The block at address `a` is registered in `vec` with the id `x`: the
record `getBlockInfo` returns for it carries `x`. -/
def HasId (vec : List BlockInfo) (a x : Nat) : Prop :=
  ∃ info, getBlockInfo vec a = some info ∧ info.BlockId = x

/-- The block at address `a` has a record in `vec`. -/
def Registered (vec : List BlockInfo) (a : Nat) : Prop := ∃ x, HasId vec a x

/-- The scan of function `F` registers block `B`: `F` has a single block, or
`B` has a non-empty successor. -/
def Scanned (M : Module) (F : Function) (B : BasicBlock) : Prop :=
  F.blocks.length = 1 ∨ 1 ≤ realSuccs M B

/-- The loop `for (auto &F : M)` enters the body of `F`. -/
def Processed (F : Function) : Prop := F.isDeclaration = false ∧ F.blocks ≠ []

/-- The set `v'` is obtained from `v` by calls of `BFS` on seeds in `S`: it
has no duplicates when `v` has none, and it lies in every set that contains
`v` and `S` and is closed under predecessors. -/
def GrowsIn (M : Module) (S : Nat → Prop) (v v' : List Nat) : Prop :=
  (v.Nodup → v'.Nodup) ∧
    ∀ P : Nat → Prop, (∀ x, P x → ∀ p, p ∈ M.preds x → P p) → (∀ s, S s → P s) →
      (∀ x, x ∈ v → P x) → ∀ x, x ∈ v' → P x

/-- The edge-map record `r = (edge_id, from, to)` was written for a block `A`
of function `F`: `from` is the registered id of `A`, and either `F` has a
single block and `to` is `0`, or `to` belongs to a direct successor `S` of
`A`: it is the registered id of `S`, or it is `0` and `S` is not a block of
`F` with a non-empty successor. -/
def RecOf (M : Module) (F : Function) (vec : List BlockInfo) (r : Nat × Nat × Nat) : Prop :=
  ∃ A, A ∈ F.blocks ∧ HasId vec A.addr r.2.1 ∧
    ((F.blocks.length = 1 ∧ r.2.2 = 0) ∨
      ∃ S, S ∈ A.succs ∧
        (HasId vec S r.2.2 ∨
          (r.2.2 = 0 ∧ ¬ ∃ B, B ∈ F.blocks ∧ B.addr = S ∧ 1 ≤ realSuccs M B)))

/-- The round trip of the edge map as the specification words it: every
record `(edge_id, from, to)` in `st.fdom` has blocks `A` and `B` of the
module, registered with the ids `from` and `to`, such that `B` is a direct
successor of `A`. -/
def EdgeMapRoundTrip (M : Module) (st : PassState) : Prop :=
  ∀ r, r ∈ st.fdom → ∃ A, A ∈ M.allBlocks ∧ ∃ B, B ∈ M.allBlocks ∧
    HasId st.AFLBlockInfoVec A.addr r.2.1 ∧ HasId st.AFLBlockInfoVec B.addr r.2.2 ∧
    B.addr ∈ A.succs

/-- The target line `a.c:5`. -/
def a_c_5 : Str := ['a', '.', 'c', ':', '5']

/-- A function with the three blocks `B1 -> B2 -> B3` at the addresses `1`,
`2`, `3`; the instructions of `B2` are at `a.c:5`, those of `B1` and `B3` at
the lines 3 and 7. -/
def scenarioModule : Module :=
  ⟨[⟨false, [⟨1, [instAt a_c 3], [2], []⟩,
             ⟨2, [instAt a_c 5, instAt a_c 5], [3], [1]⟩,
             ⟨3, [instAt a_c 7], [], [2]⟩]⟩]⟩

/-! ## The edge loop on the function as the splits rewrite it

The `do` loop reads `succ_begin(origBB)`, the sizes of the successors and
`origBB->getParent()->size()` anew in every iteration, after the calls of
`llvm::SplitEdge` of the earlier iterations.  The definitions of this section
thread the body of the function through these calls: a `Rewire` gives the
body after each call.  The scan of a function comes before every split of
that function, so it reads the function as handed to the pass. -/

/-- The effect of the `n`-th call `llvm::SplitEdge(origBB, Succ)` on the body
of the function that holds the edge: `rw n F origBB Succ` is the body after
the call, `F` the body before it. -/
abbrev Rewire := Nat → Function → Nat → Nat → Function

/-- Dereferencing a `BasicBlock*` that points into the function `F`. -/
def Function.find (F : Function) (a : Nat) : Option BasicBlock :=
  F.blocks.find? (fun b => b.addr == a)

/-- The range `succ_begin(a) .. succ_end(a)` in the present body `F`. -/
def liveSuccs (F : Function) (a : Nat) : List Nat :=
  match F.find a with
  | some b => b.succs
  | none => []

/-- The value `a->size()` in the present body `F`; a block of another
function is read from the module. -/
def liveSize (M : Module) (F : Function) (a : Nat) : Nat :=
  match F.find a with
  | some b => b.insts.length
  | none => M.size a

/-- The local `num_succ` of the `do` loop: the successors of `origBB` in the
present body with `size() > 0`. -/
def liveRealSuccs (M : Module) (F : Function) (origBB : Nat) : Nat :=
  (liveSuccs F origBB).countP (fun S => decide (0 < liveSize M F S))

/-- The loop `for (uint32_t j = 0; j < countto; j++)` over the entries of
`Successors`, with the body of the function rewritten by every call of
`llvm::SplitEdge`. -/
def splitLoopLive (env : Env) (rw : Rewire) (origBB CurrentBBid : Nat) :
    List Nat → Function × PassState → Function × PassState
  | [], s => s
  | Succ :: rest, s =>
    match env.SplitEdge s.2.splits origBB Succ with
    | none =>
      splitLoopLive env rw origBB CurrentBBid rest
        (rw s.2.splits s.1 origBB Succ, noteSplit s.2)
    | some newBB =>
      splitLoopLive env rw origBB CurrentBBid rest
        (rw s.2.splits s.1 origBB Succ,
          recordEdge env newBB CurrentBBid (SuccessorBBId s.2.AFLBlockInfoVec Succ)
            (noteSplit s.2))

/-- One iteration of the `do ... while (i > 0)` loop for the block at
`origBB`, on the present body `s.1` of the function. -/
def edgeIterLive (env : Env) (rw : Rewire) (M : Module) (s : Function × PassState)
    (origBB : Nat) : Function × PassState :=
  if liveRealSuccs M s.1 origBB = 1 then s
  else if s.1.blocks.length = 1 then
    (s.1, recordEdge env origBB (CurrentBBid s.2.AFLBlockInfoVec origBB) 0 s.2)
  else if (liveSuccs s.1 origBB).length < 1 then s
  else if (liveSuccs s.1 origBB).length = 1 then s
  else
    splitLoopLive env rw origBB (CurrentBBid s.2.AFLBlockInfoVec origBB)
      (liveSuccs s.1 origBB) s

/-- The `do ... while (i > 0)` loop on the addresses in `InsBlocks`, from
last to first. -/
def edgeLoopLive (env : Env) (rw : Rewire) (M : Module) (InsBlocks : List Nat)
    (s : Function × PassState) : Function × PassState :=
  InsBlocks.reverse.foldl (edgeIterLive env rw M) s

/-- One iteration of `for (auto &F : M)`, the edge loop reading the body as
the splits rewrite it. -/
def runOnFunctionLive (env : Env) (rw : Rewire) (M : Module) (st : PassState)
    (F : Function) : PassState :=
  if !F.isDeclaration && !F.blocks.isEmpty then
    let r := F.blocks.foldl (scanBlock env M F) ([], st)
    (edgeLoopLive env rw M (r.1.map BasicBlock.addr) (F, r.2)).2
  else st

/-- The method `AFLCoverage::runOnModule`, the edge loops reading the
functions as the splits rewrite them. -/
def runOnModuleLive (env : Env) (rw : Rewire) (M : Module) (lines : List Str)
    (visited : List Nat) : PassState :=
  let st := M.functions.foldl (runOnFunctionLive env rw M) (initState lines visited)
  st.visited.foldl sinkIter st

theorem mem_setInsert (x a : Nat) (v : List Nat) : x ∈ setInsert a v ↔ x = a ∨ x ∈ v := by
  unfold setInsert
  split
  · constructor
    · intro h; exact Or.inr h
    · rintro (h | h)
      · subst h; assumption
      · exact h
  · simp [List.mem_orderedInsert]

theorem pendingEdges_mono (L : List BasicBlock) (v w : List Nat) (h : ∀ x, x ∈ v → x ∈ w) :
    pendingEdges L w ≤ pendingEdges L v := by
  induction L with
  | nil => simp [pendingEdges]
  | cons b L ih =>
    unfold pendingEdges at ih ⊢
    by_cases hw : b.addr ∈ w
    · by_cases hv : b.addr ∈ v
      · simpa [List.filter_cons, hw, hv] using ih
      · simp only [List.filter_cons, hw, hv, not_true_eq_false, not_false_eq_true,
          decide_True, decide_False, if_true, if_false, List.map_cons, List.sum_cons]
        simp at ih ⊢
        omega
    · have hv : b.addr ∉ v := fun hv => hw (h _ hv)
      simp only [List.filter_cons, hw, hv, not_false_eq_true, decide_True, if_true,
        List.map_cons, List.sum_cons]
      simp at ih ⊢
      omega

theorem pendingEdges_insert (L : List BasicBlock) (v : List Nat) (c : Nat) (hc : c ∉ v) :
    (match L.find? (fun b => b.addr == c) with
      | some b => b.preds.length
      | none => 0) + pendingEdges L (setInsert c v) ≤ pendingEdges L v := by
  induction L with
  | nil => simp [pendingEdges]
  | cons b L ih =>
    by_cases hb : b.addr = c
    · have h1 : b.addr ∉ v := by rw [hb]; exact hc
      have h2 : b.addr ∈ setInsert c v := by rw [mem_setInsert]; exact Or.inl hb
      have h3 := pendingEdges_mono L v (setInsert c v)
        (fun x hx => (mem_setInsert x c v).2 (Or.inr hx))
      unfold pendingEdges at h3 ⊢
      simp only [List.find?_cons, hb, beq_self_eq_true, List.filter_cons, h1, h2,
        not_true_eq_false, not_false_eq_true, decide_True, decide_False, if_true, if_false,
        List.map_cons, List.sum_cons]
      simp [hb] at h1 h2
      simp [hc, h2]
      simp at h3
      omega
    · have h1 : b.addr ∈ setInsert c v ↔ b.addr ∈ v := by
        rw [mem_setInsert]; simp [hb]
      have hbeq : (b.addr == c) = false := by simp [hb]
      unfold pendingEdges at ih ⊢
      simp only [List.find?_cons, hbeq, List.filter_cons, h1]
      by_cases hv : b.addr ∈ v
      · simpa [hv] using ih
      · simp only [hv, not_false_eq_true, decide_True, if_true, List.map_cons, List.sum_cons]
        simp at ih ⊢
        omega

theorem preds_length_le (M : Module) (v : List Nat) (c : Nat) (hc : c ∉ v) :
    (M.preds c).length + pendingEdges M.allBlocks (setInsert c v)
      ≤ pendingEdges M.allBlocks v := by
  have h := pendingEdges_insert M.allBlocks v c hc
  unfold Module.preds Module.find
  cases hf : M.allBlocks.find? (fun b => b.addr == c) with
  | none => rw [hf] at h; simpa using h
  | some b => rw [hf] at h; simpa using h

theorem pendingEdges_le_total (L : List BasicBlock) (v : List Nat) :
    pendingEdges L v ≤ (L.map (fun b => b.preds.length)).sum := by
  have h := pendingEdges_mono L [] v (by simp)
  simpa [pendingEdges] using h

/-- The loop never removes a block from `visited`. -/
theorem BFS_loop_mono (M : Module) (fuel : Nat) (q v : List Nat) :
    ∀ x, x ∈ v → x ∈ (BFS_loop M fuel q v).2 := by
  induction fuel generalizing q v with
  | zero => intro x hx; simpa [BFS_loop] using hx
  | succ n ih =>
    intro x hx
    cases q with
    | nil => simpa [BFS_loop] using hx
    | cons c r =>
      by_cases hc : c ∈ v
      · simp only [BFS_loop, hc, if_true]; exact ih _ _ x hx
      · simp only [BFS_loop, hc, if_false]
        exact ih _ _ x ((mem_setInsert x c v).2 (Or.inr hx))

/-- With one unit of fuel for every queued block and every pending
predecessor edge, the loop stops on an empty queue. -/
theorem BFS_loop_done (M : Module) (fuel : Nat) (q v : List Nat)
    (h : q.length + pendingEdges M.allBlocks v ≤ fuel) :
    (BFS_loop M fuel q v).1 = [] := by
  induction fuel generalizing q v with
  | zero =>
    have : q = [] := List.eq_nil_of_length_eq_zero (by omega)
    simp [BFS_loop, this]
  | succ n ih =>
    cases q with
    | nil => simp [BFS_loop]
    | cons c r =>
      by_cases hc : c ∈ v
      · simp only [BFS_loop, hc, if_true]
        apply ih
        simp only [List.length_cons] at h
        omega
      · simp only [BFS_loop, hc, if_false]
        apply ih
        have h1 := preds_length_le M v c hc
        have h2 := List.length_filter_le
          (fun Pred => decide (Pred ∉ setInsert c v)) (M.preds c)
        simp only [List.length_cons] at h
        simp only [List.length_append]
        omega

/-- Once the queue is empty, more fuel changes nothing. -/
theorem BFS_loop_stable (M : Module) (fuel : Nat) (q v : List Nat)
    (h : (BFS_loop M fuel q v).1 = []) (k : Nat) :
    BFS_loop M (fuel + k) q v = BFS_loop M fuel q v := by
  induction fuel generalizing q v with
  | zero =>
    have hq : q = [] := by simpa [BFS_loop] using h
    subst hq
    cases k <;> simp [BFS_loop]
  | succ n ih =>
    have e : n + 1 + k = (n + k) + 1 := by omega
    rw [e]
    cases q with
    | nil => simp [BFS_loop]
    | cons c r =>
      by_cases hc : c ∈ v
      · simp only [BFS_loop, hc, if_true] at h ⊢
        exact ih _ _ h
      · simp only [BFS_loop, hc, if_false] at h ⊢
        exact ih _ _ h

/-- Every queued block is visited when the loop stops on an empty queue. -/
theorem BFS_loop_queue (M : Module) (fuel : Nat) (q v : List Nat)
    (h : (BFS_loop M fuel q v).1 = []) :
    ∀ x, x ∈ q → x ∈ (BFS_loop M fuel q v).2 := by
  induction fuel generalizing q v with
  | zero =>
    have hq : q = [] := by simpa [BFS_loop] using h
    subst hq; simp
  | succ n ih =>
    cases q with
    | nil => simp
    | cons c r =>
      intro x hx
      by_cases hc : c ∈ v
      · simp only [BFS_loop, hc, if_true] at h ⊢
        rcases List.mem_cons.1 hx with hx | hx
        · subst hx; exact BFS_loop_mono M n r v x hc
        · exact ih _ _ h x hx
      · simp only [BFS_loop, hc, if_false] at h ⊢
        rcases List.mem_cons.1 hx with hx | hx
        · subst hx
          exact BFS_loop_mono M n _ _ x ((mem_setInsert x x v).2 (Or.inl rfl))
        · exact ih _ _ h x (List.mem_append_left _ hx)

/-- If every predecessor of a visited block is visited or queued, then the
visited set the loop stops with is closed under predecessors. -/
theorem BFS_loop_closed (M : Module) (fuel : Nat) (q v : List Nat)
    (h : (BFS_loop M fuel q v).1 = [])
    (hinv : ∀ x, x ∈ v → ∀ p, p ∈ M.preds x → p ∈ v ∨ p ∈ q) :
    ∀ x, x ∈ (BFS_loop M fuel q v).2 → ∀ p, p ∈ M.preds x →
      p ∈ (BFS_loop M fuel q v).2 := by
  induction fuel generalizing q v with
  | zero =>
    have hq : q = [] := by simpa [BFS_loop] using h
    subst hq
    intro x hx p hp
    simp only [BFS_loop] at hx ⊢
    simpa using hinv x hx p hp
  | succ n ih =>
    cases q with
    | nil =>
      intro x hx p hp
      simp only [BFS_loop] at hx ⊢
      simpa using hinv x hx p hp
    | cons c r =>
      by_cases hc : c ∈ v
      · simp only [BFS_loop, hc, if_true] at h ⊢
        apply ih _ _ h
        intro x hx p hp
        rcases hinv x hx p hp with h1 | h1
        · exact Or.inl h1
        · rcases List.mem_cons.1 h1 with h2 | h2
          · subst h2; exact Or.inl hc
          · exact Or.inr h2
      · simp only [BFS_loop, hc, if_false] at h ⊢
        apply ih _ _ h
        intro x hx p hp
        by_cases hpv : p ∈ setInsert c v
        · exact Or.inl hpv
        · right
          rcases (mem_setInsert x c v).1 hx with h1 | h1
          · subst h1
            exact List.mem_append_right _ (List.mem_filter.2 ⟨hp, by simpa using hpv⟩)
          · rcases hinv x h1 p hp with h2 | h2
            · exact absurd ((mem_setInsert p c v).2 (Or.inr h2)) hpv
            · rcases List.mem_cons.1 h2 with h3 | h3
              · exact absurd ((mem_setInsert p c v).2 (Or.inl h3)) hpv
              · exact List.mem_append_left _ h3

theorem BFS_terminates (M : Module) (Target : Nat) (v : List Nat) :
    (BFS_loop M (bfsFuel M) [Target] v).1 = [] := by
  apply BFS_loop_done
  have := pendingEdges_le_total M.allBlocks v
  simp only [bfsFuel, List.length_singleton]
  omega

theorem BFS_mono (M : Module) (Target : Nat) (v : List Nat) :
    ∀ x, x ∈ v → x ∈ BFS M Target v := BFS_loop_mono M _ _ v

theorem BFS_target (M : Module) (Target : Nat) (v : List Nat) : Target ∈ BFS M Target v :=
  BFS_loop_queue M _ _ v (BFS_terminates M Target v) Target (by simp)

theorem BFS_closed (M : Module) (Target : Nat) (v : List Nat) (hv : PredClosed M v) :
    PredClosed M (BFS M Target v) :=
  BFS_loop_closed M _ _ v (BFS_terminates M Target v)
    (fun x hx p hp => Or.inl (hv x hx p hp))

theorem setInsert_nodup (a : Nat) (v : List Nat) (h : v.Nodup) : (setInsert a v).Nodup := by
  unfold setInsert
  split
  · exact h
  · rename_i ha
    exact (List.perm_orderedInsert (· ≤ ·) a v).nodup_iff.2 (List.nodup_cons.2 ⟨ha, h⟩)

theorem BFS_loop_nodup (M : Module) (fuel : Nat) (q v : List Nat) (h : v.Nodup) :
    (BFS_loop M fuel q v).2.Nodup := by
  induction fuel generalizing q v with
  | zero => simpa [BFS_loop] using h
  | succ n ih =>
    cases q with
    | nil => simpa [BFS_loop] using h
    | cons c r =>
      by_cases hc : c ∈ v
      · simp only [BFS_loop, hc, if_true]; exact ih _ _ h
      · simp only [BFS_loop, hc, if_false]; exact ih _ _ (setInsert_nodup c v h)

theorem BFS_all_closed (M : Module) (seeds : List Nat) (v : List Nat) (hv : PredClosed M v) :
    PredClosed M (BFS_all M seeds v) := by
  induction seeds generalizing v with
  | nil => simpa [BFS_all] using hv
  | cons s r ih => exact ih _ (BFS_closed M s v hv)

theorem BFS_all_mono (M : Module) (seeds : List Nat) (v : List Nat) :
    ∀ x, x ∈ v → x ∈ BFS_all M seeds v := by
  induction seeds generalizing v with
  | nil => intro x hx; simpa [BFS_all] using hx
  | cons s r ih => intro x hx; exact ih _ x (BFS_mono M s v x hx)

theorem BFS_all_seed (M : Module) (seeds : List Nat) (v : List Nat) :
    ∀ s, s ∈ seeds → s ∈ BFS_all M seeds v := by
  induction seeds generalizing v with
  | nil => intro s hs; simp at hs
  | cons a r ih =>
    intro s hs
    rcases List.mem_cons.1 hs with h | h
    · subst h; exact BFS_all_mono M r _ s (BFS_target M s v)
    · exact ih _ s h

/-- C1. Backward reachability is transitively closed: after `BFS` has been
called on the seeds one after the other, starting from the empty `visited`,
every block joined to one of the seeds by a chain of `N` predecessor edges is
in `visited`, whatever the earlier calls had already marked. -/
theorem BFS_transitively_closed (M : Module) (seeds : List Nat) (seed N X : Nat)
    (hseed : seed ∈ seeds) (hchain : predChain M N seed X) :
    X ∈ BFS_all M seeds [] := by
  have hcl : PredClosed M (BFS_all M seeds []) :=
    BFS_all_closed M seeds [] (fun x hx => by simp at hx)
  induction N generalizing X with
  | zero =>
    have : X = seed := hchain
    subst this
    exact BFS_all_seed M seeds [] X hseed
  | succ n ih =>
    obtain ⟨Y, hY, hX⟩ := hchain
    exact hcl Y (ih Y hY) X hX

theorem BFS_transitively_closed_witness :
    (1 : Nat) ∈ [2, 1] ∧ predChain cycleModule 2 1 1 ∧ 1 ∈ BFS_all cycleModule [2, 1] [] :=
  ⟨by decide, ⟨2, ⟨1, rfl, by decide⟩, by decide⟩,
    BFS_transitively_closed cycleModule [2, 1] 1 2 1 (by decide) ⟨2, ⟨1, rfl, by decide⟩, by decide⟩⟩

/-- One iteration on a non-empty queue lowers the number of queued blocks plus
the number of predecessor edges of unvisited blocks. -/
theorem BFS_loop_progress (M : Module) (current : Nat) (toVisit v : List Nat) :
    (BFS_loop M 1 (current :: toVisit) v).1.length +
        pendingEdges M.allBlocks (BFS_loop M 1 (current :: toVisit) v).2 <
      (current :: toVisit).length + pendingEdges M.allBlocks v := by
  by_cases hc : current ∈ v
  · simp [BFS_loop, hc]
  · have h1 := preds_length_le M v current hc
    have h2 := List.length_filter_le
      (fun Pred => decide (Pred ∉ setInsert current v)) (M.preds current)
    simp only [BFS_loop, hc, if_false, List.length_append, List.length_cons]
    omega

/-- C9. `BFS` terminates on every module, cycles and self-loops included, and
for any contents of `visited`: from `bfsFuel M` iterations on, the loop has
stopped on an empty queue with the same result; every iteration on a
non-empty queue lowers the number of queued blocks plus the number of
predecessor edges of unvisited blocks (it shortens the queue or marks a new
block); the result contains the former `visited`, and has no block twice
when `visited` had none twice. -/
theorem BFS_terminates_and_grows (M : Module) (Target : Nat) (visited : List Nat) :
    (∀ fuel, bfsFuel M ≤ fuel →
        BFS_loop M fuel [Target] visited = ([], BFS M Target visited)) ∧
      (∀ current toVisit v,
        (BFS_loop M 1 (current :: toVisit) v).1.length +
            pendingEdges M.allBlocks (BFS_loop M 1 (current :: toVisit) v).2 <
          (current :: toVisit).length + pendingEdges M.allBlocks v) ∧
      (∀ x, x ∈ visited → x ∈ BFS M Target visited) ∧
      (visited.Nodup → (BFS M Target visited).Nodup) := by
  refine ⟨?_, BFS_loop_progress M, BFS_mono M Target visited, BFS_loop_nodup M _ _ visited⟩
  intro fuel hf
  obtain ⟨k, rfl⟩ := Nat.exists_eq_add_of_le hf
  rw [BFS_loop_stable M (bfsFuel M) [Target] visited (BFS_terminates M Target visited) k]
  exact Prod.ext (BFS_terminates M Target visited) rfl

theorem BFS_terminates_and_grows_witness :
    BFS_loop cycleModule 7 [1] [3] = ([], [1, 2, 3]) ∧ [3].Nodup ∧
      (BFS cycleModule 1 [3]).Nodup :=
  ⟨((BFS_terminates_and_grows cycleModule 1 [3]).1 7 (by decide)).trans (by decide),
    by decide, (BFS_terminates_and_grows cycleModule 1 [3]).2.2.2 (by decide)⟩

/-! ## Strings -/

theorem find_last_of_none (s : Str) (chars : List Char) (h : ∀ c, c ∈ s → c ∉ chars) :
    find_last_of s chars = none := by
  induction s with
  | nil => rfl
  | cons a s ih =>
    have h1 := ih (fun c hc => h c (List.mem_cons_of_mem _ hc))
    have h2 : a ∉ chars := h a (List.mem_cons_self _ _)
    simp [find_last_of, h1, h2]

theorem find_last_of_append (d rest : Str) (sep : Char) (chars : List Char)
    (hsep : sep ∈ chars) (h : ∀ c, c ∈ rest → c ∉ chars) :
    find_last_of (d ++ sep :: rest) chars = some d.length := by
  induction d with
  | nil => simp [find_last_of, find_last_of_none rest chars h, hsep]
  | cons a d ih => simp [find_last_of, ih]

theorem stripDir_noSlash (s : Str) (h : ∀ c, c ∈ s → c ∉ slashes) : stripDir s = s := by
  simp [stripDir, find_last_of_none s slashes h]

theorem stripDir_dir (d rest : Str) (sep : Char) (hsep : sep ∈ slashes)
    (h : ∀ c, c ∈ rest → c ∉ slashes) : stripDir (d ++ sep :: rest) = rest := by
  simp [stripDir, find_last_of_append d rest sep slashes hsep h]

theorem digitChar_not_slash (m : Nat) (hm : m < 10) : Nat.digitChar m ∉ slashes := by
  interval_cases m <;> decide

theorem toDigitsCore_chars (fuel n : Nat) (acc : List Char) :
    ∀ c, c ∈ Nat.toDigitsCore 10 fuel n acc → c ∈ acc ∨ c ∉ slashes := by
  induction fuel generalizing n acc with
  | zero => intro c hc; left; simpa [Nat.toDigitsCore] using hc
  | succ k ih =>
    intro c hc
    simp only [Nat.toDigitsCore] at hc
    split at hc
    · rcases List.mem_cons.1 hc with h | h
      · right; rw [h]; exact digitChar_not_slash _ (Nat.mod_lt _ (by decide))
      · exact Or.inl h
    · rcases ih _ _ c hc with h | h
      · rcases List.mem_cons.1 h with h | h
        · right; rw [h]; exact digitChar_not_slash _ (Nat.mod_lt _ (by decide))
        · exact Or.inl h
      · exact Or.inr h

theorem to_string_noSlash (n : Nat) : ∀ c, c ∈ to_string n → c ∉ slashes := by
  intro c hc
  rcases toDigitsCore_chars _ _ _ c hc with h | h
  · simp at h
  · exact h

/-! ## Target entries that differ by a directory prefix -/

theorem SameUpToTargets_refl (s : PassState) : SameUpToTargets s s := ⟨rfl, rfl⟩

theorem targetsLoop_fst (M : Module) (c BB : Nat) (fn : Str) (ln : Nat) (l : List Str)
    (st : PassState) : (targetsLoop M c BB fn ln l st).1 = l.map target_strip := by
  induction l generalizing st with
  | nil => rfl
  | cons a r ih => simp only [targetsLoop, List.map_cons, ih]

theorem targetsLoop_setTargets (M : Module) (c BB : Nat) (fn : Str) (ln : Nat) (l : List Str)
    (st : PassState) (t : List Str) :
    targetsLoop M c BB fn ln l { st with targets := t } =
      ((targetsLoop M c BB fn ln l st).1,
        { (targetsLoop M c BB fn ln l st).2 with targets := t }) := by
  induction l generalizing st with
  | nil => rfl
  | cons a r ih =>
    simp only [targetsLoop]
    split
    · exact congrArg (fun x => (target_strip a :: x.1, x.2))
        (ih (recordTarget M c BB fn ln st))
    · exact congrArg (fun x => (target_strip a :: x.1, x.2)) (ih st)

theorem targetsLoop_congr (M : Module) (c BB : Nat) (fn : Str) (ln : Nat) (l1 l2 : List Str)
    (st : PassState) (h : l1.map target_strip = l2.map target_strip) :
    targetsLoop M c BB fn ln l1 st = targetsLoop M c BB fn ln l2 st := by
  induction l1 generalizing l2 st with
  | nil =>
    cases l2 with
    | nil => rfl
    | cons b r => simp at h
  | cons a r ih =>
    cases l2 with
    | nil => simp at h
    | cons b r2 =>
      simp only [List.map_cons, List.cons.injEq] at h
      simp only [targetsLoop, h.1]
      rw [ih r2 _ h.2]

theorem scanResolved_same (M : Module) (c BB : Nat) (fn : Str) (ln : Nat)
    (s1 s2 : PassState) (h : SameUpToTargets s1 s2) :
    (scanResolved M c BB fn ln s1).1 = (scanResolved M c BB fn ln s2).1 ∧
    (scanResolved M c BB fn ln s1).2.1 = (scanResolved M c BB fn ln s2).2.1 ∧
    SameUpToTargets (scanResolved M c BB fn ln s1).2.2 (scanResolved M c BB fn ln s2).2.2 := by
  obtain ⟨h1, h2⟩ := h
  unfold scanResolved
  simp only
  split
  · exact ⟨rfl, rfl, h1, h2⟩
  · refine ⟨rfl, rfl, ?_⟩
    have e : targetsLoop M c BB (stripDir fn) ln s1.targets s1 =
        ((targetsLoop M c BB (stripDir fn) ln s2.targets s2).1,
          { (targetsLoop M c BB (stripDir fn) ln s2.targets s2).2 with
            targets := s1.targets }) := by
      rw [targetsLoop_congr M c BB (stripDir fn) ln s1.targets s2.targets s1 h1]
      conv_lhs => rw [h2]
      exact targetsLoop_setTargets M c BB (stripDir fn) ln s2.targets s2 s1.targets
    rw [e]
    exact SameUpToTargets_refl _

theorem scanInsts_same (M : Module) (c BB : Nat) (insts : List Instruction)
    (fn : Str) (ln : Nat) (s1 s2 : PassState) (h : SameUpToTargets s1 s2) :
    SameUpToTargets (insts.foldl (scanInst M c BB) (fn, ln, s1)).2.2
      (insts.foldl (scanInst M c BB) (fn, ln, s2)).2.2 := by
  induction insts generalizing fn ln s1 s2 with
  | nil => exact h
  | cons I r ih =>
    simp only [List.foldl_cons]
    obtain ⟨e1, e2, e3⟩ := scanResolved_same M c BB (getDebugLoc I fn ln).1
      (getDebugLoc I fn ln).2 s1 s2 h
    have a1 : scanInst M c BB (fn, ln, s1) I =
        ((scanResolved M c BB (getDebugLoc I fn ln).1 (getDebugLoc I fn ln).2 s2).1,
         (scanResolved M c BB (getDebugLoc I fn ln).1 (getDebugLoc I fn ln).2 s2).2.1,
         (scanResolved M c BB (getDebugLoc I fn ln).1 (getDebugLoc I fn ln).2 s1).2.2) := by
      simp only [scanInst]
      rw [← e1, ← e2]
    have a2 : scanInst M c BB (fn, ln, s2) I =
        ((scanResolved M c BB (getDebugLoc I fn ln).1 (getDebugLoc I fn ln).2 s2).1,
         (scanResolved M c BB (getDebugLoc I fn ln).1 (getDebugLoc I fn ln).2 s2).2.1,
         (scanResolved M c BB (getDebugLoc I fn ln).1 (getDebugLoc I fn ln).2 s2).2.2) := by
      simp only [scanInst]
    rw [a1, a2]
    exact ih _ _ _ _ e3

theorem scanBlock_same (env : Env) (M : Module) (F : Function) (BB : BasicBlock)
    (ins : List BasicBlock) (s1 s2 : PassState) (h : SameUpToTargets s1 s2) :
    (scanBlock env M F (ins, s1) BB).1 = (scanBlock env M F (ins, s2) BB).1 ∧
    SameUpToTargets (scanBlock env M F (ins, s1) BB).2 (scanBlock env M F (ins, s2) BB).2 := by
  unfold scanBlock
  split
  · exact ⟨rfl, h⟩
  · refine ⟨rfl, ?_⟩
    simp only
    have hd : s1.draws = s2.draws := by rw [h.2]
    rw [hd]
    apply scanInsts_same
    refine ⟨h.1, ?_⟩
    conv_lhs => rw [h.2]

theorem scanBlocks_same (env : Env) (M : Module) (F : Function) (blocks : List BasicBlock)
    (ins : List BasicBlock) (s1 s2 : PassState) (h : SameUpToTargets s1 s2) :
    (blocks.foldl (scanBlock env M F) (ins, s1)).1 =
      (blocks.foldl (scanBlock env M F) (ins, s2)).1 ∧
    SameUpToTargets (blocks.foldl (scanBlock env M F) (ins, s1)).2
      (blocks.foldl (scanBlock env M F) (ins, s2)).2 := by
  induction blocks generalizing ins s1 s2 with
  | nil => exact ⟨rfl, h⟩
  | cons B r ih =>
    simp only [List.foldl_cons]
    obtain ⟨e1, e2⟩ := scanBlock_same env M F B ins s1 s2 h
    have a1 : scanBlock env M F (ins, s1) B =
        ((scanBlock env M F (ins, s2) B).1, (scanBlock env M F (ins, s1) B).2) := by
      rw [← e1]
    have a2 : scanBlock env M F (ins, s2) B =
        ((scanBlock env M F (ins, s2) B).1, (scanBlock env M F (ins, s2) B).2) := rfl
    rw [a1, a2]
    exact ih _ _ _ e2

theorem splitLoop_setTargets (env : Env) (o c : Nat) (l : List Nat) (st : PassState)
    (t : List Str) :
    splitLoop env o c l { st with targets := t } =
      { splitLoop env o c l st with targets := t } := by
  induction l generalizing st with
  | nil => rfl
  | cons S r ih =>
    simp only [splitLoop]
    cases env.SplitEdge st.splits o S with
    | none => exact ih (noteSplit st)
    | some newBB =>
      exact ih (recordEdge env newBB c (SuccessorBBId st.AFLBlockInfoVec S) (noteSplit st))

theorem edgeIter_setTargets (env : Env) (M : Module) (F : Function) (B : BasicBlock)
    (st : PassState) (t : List Str) :
    edgeIter env M F B { st with targets := t } =
      { edgeIter env M F B st with targets := t } := by
  unfold edgeIter
  split
  · rfl
  · split
    · rfl
    · split
      · rfl
      · split
        · rfl
        · exact splitLoop_setTargets env _ _ _ st t

theorem edgeLoop_setTargets (env : Env) (M : Module) (F : Function) (l : List BasicBlock)
    (st : PassState) (t : List Str) :
    l.foldl (fun st origBB => edgeIter env M F origBB st) { st with targets := t } =
      { l.foldl (fun st origBB => edgeIter env M F origBB st) st with targets := t } := by
  induction l generalizing st with
  | nil => rfl
  | cons B r ih =>
    simp only [List.foldl_cons]
    rw [edgeIter_setTargets]
    exact ih _

theorem splitLoop_targets (env : Env) (o c : Nat) (l : List Nat) (st : PassState) :
    (splitLoop env o c l st).targets = st.targets := by
  induction l generalizing st with
  | nil => rfl
  | cons S r ih =>
    simp only [splitLoop]
    cases env.SplitEdge st.splits o S with
    | none => exact ih (noteSplit st)
    | some newBB =>
      exact ih (recordEdge env newBB c (SuccessorBBId st.AFLBlockInfoVec S) (noteSplit st))

theorem edgeIter_targets (env : Env) (M : Module) (F : Function) (B : BasicBlock)
    (st : PassState) : (edgeIter env M F B st).targets = st.targets := by
  unfold edgeIter
  split
  · rfl
  · split
    · rfl
    · split
      · rfl
      · split
        · rfl
        · exact splitLoop_targets env _ _ _ st

theorem edgeLoop_targets (env : Env) (M : Module) (F : Function) (l : List BasicBlock)
    (st : PassState) :
    (l.foldl (fun st origBB => edgeIter env M F origBB st) st).targets = st.targets := by
  induction l generalizing st with
  | nil => rfl
  | cons B r ih =>
    simp only [List.foldl_cons]
    rw [ih, edgeIter_targets]

theorem edgeLoop_same (env : Env) (M : Module) (F : Function) (l : List BasicBlock)
    (s1 s2 : PassState) (h : SameUpToTargets s1 s2) :
    SameUpToTargets (edgeLoop env M F l s1) (edgeLoop env M F l s2) := by
  obtain ⟨h1, h2⟩ := h
  unfold edgeLoop
  constructor
  · rw [edgeLoop_targets, edgeLoop_targets]; exact h1
  · rw [edgeLoop_targets]
    conv_lhs => rw [h2]
    exact edgeLoop_setTargets env M F _ s2 s1.targets

theorem runOnFunction_same (env : Env) (M : Module) (F : Function)
    (s1 s2 : PassState) (h : SameUpToTargets s1 s2) :
    SameUpToTargets (runOnFunction env M s1 F) (runOnFunction env M s2 F) := by
  unfold runOnFunction
  split
  · obtain ⟨e1, e2⟩ := scanBlocks_same env M F F.blocks [] s1 s2 h
    simp only
    rw [e1]
    exact edgeLoop_same env M F _ _ _ e2
  · exact h

theorem instrumentModule_same (env : Env) (M : Module) (fs : List Function)
    (s1 s2 : PassState) (h : SameUpToTargets s1 s2) :
    SameUpToTargets (fs.foldl (runOnFunction env M) s1) (fs.foldl (runOnFunction env M) s2) := by
  induction fs generalizing s1 s2 with
  | nil => exact h
  | cons F r ih => exact ih _ _ (runOnFunction_same env M F s1 s2 h)

theorem sinkLoop_setTargets (l : List Nat) (st : PassState) (t : List Str) :
    l.foldl sinkIter { st with targets := t } = { l.foldl sinkIter st with targets := t } := by
  induction l generalizing st with
  | nil => rfl
  | cons B r ih =>
    simp only [List.foldl_cons]
    have e : sinkIter { st with targets := t } B = { sinkIter st B with targets := t } := by
      unfold sinkIter
      simp only
      cases getBlockInfo st.AFLBlockInfoVec B <;> rfl
    rw [e]
    exact ih _

theorem sinkLoop_targets (l : List Nat) (st : PassState) :
    (l.foldl sinkIter st).targets = st.targets := by
  induction l generalizing st with
  | nil => rfl
  | cons B r ih =>
    simp only [List.foldl_cons]
    rw [ih]
    unfold sinkIter
    simp only
    cases getBlockInfo st.AFLBlockInfoVec B <;> rfl

theorem sinkLoop_same (s1 s2 : PassState) (h : SameUpToTargets s1 s2) :
    SameUpToTargets (s1.visited.foldl sinkIter s1) (s2.visited.foldl sinkIter s2) := by
  obtain ⟨h1, h2⟩ := h
  have hv : s1.visited = s2.visited := by rw [h2]
  constructor
  · rw [sinkLoop_targets, sinkLoop_targets]; exact h1
  · rw [sinkLoop_targets, hv]
    conv_lhs => rw [h2]
    exact sinkLoop_setTargets _ s2 s1.targets

theorem runOnModule_same (env : Env) (M : Module) (lines1 lines2 : List Str)
    (visited : List Nat)
    (h : (load_targets lines1).map target_strip = (load_targets lines2).map target_strip) :
    SameUpToTargets (runOnModule env M lines1 visited) (runOnModule env M lines2 visited) := by
  unfold runOnModule instrumentModule
  apply sinkLoop_same
  apply instrumentModule_same
  exact ⟨h, rfl⟩

theorem find_last_of_isSome (s : Str) (chars : List Char) (c : Char) (hc : c ∈ s)
    (hcc : c ∈ chars) : (find_last_of s chars).isSome := by
  induction s with
  | nil => simp at hc
  | cons a s ih =>
    simp only [find_last_of]
    cases h : find_last_of s chars with
    | some i => rfl
    | none =>
      rcases List.mem_cons.1 hc with h1 | h1
      · subst h1; simp [hcc]
      · have := ih h1; rw [h] at this; simp at this

theorem load_targets_entry (pre post : List Str) (t : Str) (ht : ':' ∈ t) :
    load_targets (pre ++ [t] ++ post) = load_targets pre ++ [t] ++ load_targets post := by
  have h : (find_last_of t colon).isSome := find_last_of_isSome t colon ':' ht (by decide)
  simp [load_targets, List.filter_append, List.filter_cons, h]

theorem target_strip_entry (d f : Str) (n : Nat) (hf : ∀ c, c ∈ f → c ∉ slashes) :
    target_strip (d ++ '/' :: (f ++ colon ++ to_string n)) =
      target_strip (f ++ colon ++ to_string n) := by
  have h : ∀ c, c ∈ f ++ colon ++ to_string n → c ∉ slashes := by
    intro c hc
    rcases List.mem_append.1 hc with h1 | h1
    · rcases List.mem_append.1 h1 with h2 | h2
      · exact hf c h2
      · have : c = ':' := by simpa [colon] using h2
        subst this; decide
    · exact to_string_noSlash n c h1
  unfold target_strip
  rw [stripDir_dir d _ '/' (by decide) h, stripDir_noSlash _ h]

/-- C7. Target matching ignores directory prefixes.  For a file name `f`
without `/` or `\`, a line number `n` and any prefix `d`: running the pass
with the target entry `d/f:n` or with the entry `f:n` in its place gives the
same matched ids, the same `Id2target`, the same `visited`, the same
reachable-block output and the same sinks; and an instruction whose resolved
file name is `d/f` is handled exactly as one whose resolved file name is `f`. -/
theorem target_matching_ignores_directory (env : Env) (M : Module) (pre post : List Str)
    (visited : List Nat) (d f : Str) (n cur_loc BB line : Nat) (st : PassState)
    (hf : ∀ c, c ∈ f → c ∉ slashes) :
    ((runOnModule env M (pre ++ [d ++ '/' :: (f ++ colon ++ to_string n)] ++ post)
          visited).TargetBBid =
        (runOnModule env M (pre ++ [f ++ colon ++ to_string n] ++ post) visited).TargetBBid ∧
      (runOnModule env M (pre ++ [d ++ '/' :: (f ++ colon ++ to_string n)] ++ post)
          visited).Id2target =
        (runOnModule env M (pre ++ [f ++ colon ++ to_string n] ++ post) visited).Id2target ∧
      (runOnModule env M (pre ++ [d ++ '/' :: (f ++ colon ++ to_string n)] ++ post)
          visited).visited =
        (runOnModule env M (pre ++ [f ++ colon ++ to_string n] ++ post) visited).visited ∧
      (runOnModule env M (pre ++ [d ++ '/' :: (f ++ colon ++ to_string n)] ++ post)
          visited).fdom2 =
        (runOnModule env M (pre ++ [f ++ colon ++ to_string n] ++ post) visited).fdom2 ∧
      (runOnModule env M (pre ++ [d ++ '/' :: (f ++ colon ++ to_string n)] ++ post)
          visited).sinks =
        (runOnModule env M (pre ++ [f ++ colon ++ to_string n] ++ post) visited).sinks) ∧
    scanResolved M cur_loc BB (d ++ '/' :: f) line st = scanResolved M cur_loc BB f line st := by
  constructor
  · have h1 : ':' ∈ d ++ '/' :: (f ++ colon ++ to_string n) := by simp [colon]
    have h2 : ':' ∈ f ++ colon ++ to_string n := by simp [colon]
    have h := runOnModule_same env M
      (pre ++ [d ++ '/' :: (f ++ colon ++ to_string n)] ++ post)
      (pre ++ [f ++ colon ++ to_string n] ++ post) visited
      (by rw [load_targets_entry _ _ _ h1, load_targets_entry _ _ _ h2]
          simp only [List.map_append, List.map_cons, List.map_nil,
            target_strip_entry d f n hf])
    have e := h.2
    refine ⟨?_, ?_, ?_, ?_, ?_⟩ <;> (conv_lhs => rw [e])
  · unfold scanResolved
    rw [stripDir_dir d f '/' (by decide) hf, stripDir_noSlash f hf]

theorem target_matching_ignores_directory_witness :
    (∀ c, c ∈ foo_c → c ∉ slashes) ∧
      (runOnModule sampleEnv (oneBlockModule [instAt foo_c 10])
          ([] ++ [['/', 'a', '/', 'b'] ++ '/' :: (foo_c ++ colon ++ to_string 10)] ++ [])
          []).TargetBBid =
        (runOnModule sampleEnv (oneBlockModule [instAt foo_c 10])
          ([] ++ [foo_c ++ colon ++ to_string 10] ++ []) []).TargetBBid ∧
      (runOnModule sampleEnv (oneBlockModule [instAt foo_c 10])
          ([] ++ [foo_c ++ colon ++ to_string 10] ++ []) []).TargetBBid = [100] :=
  ⟨by decide,
    (target_matching_ignores_directory sampleEnv (oneBlockModule [instAt foo_c 10]) [] [] []
      ['/', 'a', '/', 'b'] foo_c 10 0 0 0 (initState [] []) (by decide)).1.1,
    by decide⟩

theorem find_last_of_tail (s : Str) (chars : List Char) (i : Nat)
    (h : find_last_of s chars = some i) : ∀ c, c ∈ s.drop (i + 1) → c ∉ chars := by
  induction s generalizing i with
  | nil => simp [find_last_of] at h
  | cons a s ih =>
    simp only [find_last_of] at h
    cases hs : find_last_of s chars with
    | some j =>
      rw [hs] at h
      simp only [Option.some.injEq] at h
      subst h
      simpa using ih j hs
    | none =>
      rw [hs] at h
      by_cases ha : a ∈ chars
      · simp only [ha, if_true, Option.some.injEq] at h
        subst h
        intro c hc hcc
        have hc2 : c ∈ s := by simpa using hc
        have := find_last_of_isSome s chars c hc2 hcc
        rw [hs] at this; simp at this
      · simp [ha] at h

theorem stripDir_chars (s : Str) : ∀ c, c ∈ stripDir s → c ∉ slashes := by
  unfold stripDir
  cases h : find_last_of s slashes with
  | some i => exact find_last_of_tail s slashes i h
  | none =>
    intro c hc hcc
    have := find_last_of_isSome s slashes c hc hcc
    rw [h] at this; simp at this

theorem compare0_stripDir (s : Str) : compare0 (stripDir s) Xlibs = false := by
  cases hcmp : compare0 (stripDir s) Xlibs with
  | false => rfl
  | true =>
    exfalso
    have e : (stripDir s).take Xlibs.length = Xlibs := by simpa [compare0] using hcmp
    have hmem : '/' ∈ (stripDir s).take Xlibs.length := by rw [e]; decide
    exact stripDir_chars s '/' (List.mem_of_mem_take hmem) (by decide)

/-- C3, as the code behaves.  The comparison with `Xlibs` is made on the file
name whose directories have already been removed, so it is never true; and
the single block of a function whose instruction is at
`/usr/include/foo.c:5` is matched by the target `foo.c:5`: its id is
appended to `TargetBBid`, `Id2target` gets an entry and `BFS` marks it. -/
theorem usr_block_is_matched :
    (∀ s : Str, compare0 (stripDir s) Xlibs = false) ∧
      (runOnModule sampleEnv (oneBlockModule [instAt usr_include_foo_c 5])
        [foo_c ++ colon ++ to_string 5] []).TargetBBid = [100] ∧
      (runOnModule sampleEnv (oneBlockModule [instAt usr_include_foo_c 5])
        [foo_c ++ colon ++ to_string 5] []).Id2target = [(100, [foo_c ++ colon ++ to_string 5])] ∧
      (runOnModule sampleEnv (oneBlockModule [instAt usr_include_foo_c 5])
        [foo_c ++ colon ++ to_string 5] []).visited = [1] :=
  ⟨compare0_stripDir, by decide, by decide, by decide⟩

/-- C6, as the code behaves.  The loop over the instructions of a block has
no exit after the first instruction with a usable location: a block with
instructions at `a.c:4` and `a.c:5` is matched by the target `a.c:5`, and a
block with two instructions at `a.c:5` puts its id into `TargetBBid` twice. -/
theorem scan_does_not_stop_at_first_location :
    (runOnModule sampleEnv (oneBlockModule [instAt a_c 4, instAt a_c 5])
        [a_c ++ colon ++ to_string 5] []).TargetBBid = [100] ∧
      (runOnModule sampleEnv (oneBlockModule [instAt a_c 5, instAt a_c 5])
        [a_c ++ colon ++ to_string 5] []).TargetBBid = [100, 100] :=
  ⟨by decide, by decide⟩

/-! ## What the scan of a function changes -/

theorem BFS_loop_within (M : Module) (P : Nat → Prop)
    (hP : ∀ x, P x → ∀ p, p ∈ M.preds x → P p) (fuel : Nat) (q v : List Nat)
    (hq : ∀ x, x ∈ q → P x) (hv : ∀ x, x ∈ v → P x) :
    ∀ x, x ∈ (BFS_loop M fuel q v).2 → P x := by
  induction fuel generalizing q v with
  | zero => simpa [BFS_loop] using hv
  | succ n ih =>
    cases q with
    | nil => simpa [BFS_loop] using hv
    | cons c r =>
      have hc : P c := hq c (List.mem_cons_self _ _)
      have hr : ∀ x, x ∈ r → P x := fun x hx => hq x (List.mem_cons_of_mem _ hx)
      by_cases hcv : c ∈ v
      · simp only [BFS_loop, hcv, if_true]; exact ih _ _ hr hv
      · simp only [BFS_loop, hcv, if_false]
        apply ih
        · intro x hx
          rcases List.mem_append.1 hx with h | h
          · exact hr x h
          · exact hP c hc x (List.mem_filter.1 h).1
        · intro x hx
          rcases (mem_setInsert x c v).1 hx with h | h
          · rw [h]; exact hc
          · exact hv x h

theorem GrowsIn_refl (M : Module) (S : Nat → Prop) (v : List Nat) : GrowsIn M S v v :=
  ⟨id, fun _ _ _ hv => hv⟩

theorem GrowsIn_trans {M : Module} {S : Nat → Prop} {v1 v2 v3 : List Nat}
    (h1 : GrowsIn M S v1 v2) (h2 : GrowsIn M S v2 v3) : GrowsIn M S v1 v3 :=
  ⟨fun h => h2.1 (h1.1 h), fun P hP hS hv => h2.2 P hP hS (h1.2 P hP hS hv)⟩

theorem GrowsIn_mono {M : Module} {S T : Nat → Prop} {v1 v2 : List Nat}
    (h : GrowsIn M S v1 v2) (hST : ∀ s, S s → T s) : GrowsIn M T v1 v2 :=
  ⟨h.1, fun P hP hT hv => h.2 P hP (fun s hs => hT s (hST s hs)) hv⟩

theorem GrowsIn_BFS (M : Module) (S : Nat → Prop) (seed : Nat) (hs : S seed)
    (v : List Nat) : GrowsIn M S v (BFS M seed v) :=
  ⟨BFS_loop_nodup M _ _ v, fun P hP hS hv =>
    BFS_loop_within M P hP _ [seed] v (by intro x hx; simp at hx; rw [hx]; exact hS _ hs) hv⟩

theorem targetsLoop_frame (M : Module) (c BB : Nat) (fn : Str) (ln : Nat) (l : List Str)
    (st : PassState) :
    (targetsLoop M c BB fn ln l st).2.AFLBlockInfoVec = st.AFLBlockInfoVec ∧
    (targetsLoop M c BB fn ln l st).2.fdom = st.fdom ∧
    (targetsLoop M c BB fn ln l st).2.draws = st.draws ∧
    GrowsIn M (fun a => a = BB) st.visited (targetsLoop M c BB fn ln l st).2.visited := by
  induction l generalizing st with
  | nil => exact ⟨rfl, rfl, rfl, GrowsIn_refl _ _ _⟩
  | cons a r ih =>
    simp only [targetsLoop]
    split
    · obtain ⟨h1, h2, h3, h4⟩ := ih (recordTarget M c BB fn ln st)
      exact ⟨h1, h2, h3, GrowsIn_trans (GrowsIn_BFS M (fun a => a = BB) BB rfl st.visited) h4⟩
    · exact ih st

theorem scanResolved_frame (M : Module) (c BB : Nat) (fn : Str) (ln : Nat) (st : PassState) :
    (scanResolved M c BB fn ln st).2.2.AFLBlockInfoVec = st.AFLBlockInfoVec ∧
    (scanResolved M c BB fn ln st).2.2.fdom = st.fdom ∧
    (scanResolved M c BB fn ln st).2.2.draws = st.draws ∧
    GrowsIn M (fun a => a = BB) st.visited (scanResolved M c BB fn ln st).2.2.visited := by
  unfold scanResolved
  simp only
  split
  · exact ⟨rfl, rfl, rfl, GrowsIn_refl _ _ _⟩
  · exact targetsLoop_frame M c BB (stripDir fn) ln st.targets st

theorem scanInsts_frame (M : Module) (c BB : Nat) (insts : List Instruction)
    (acc : Str × Nat × PassState) :
    (insts.foldl (scanInst M c BB) acc).2.2.AFLBlockInfoVec = acc.2.2.AFLBlockInfoVec ∧
    (insts.foldl (scanInst M c BB) acc).2.2.fdom = acc.2.2.fdom ∧
    (insts.foldl (scanInst M c BB) acc).2.2.draws = acc.2.2.draws ∧
    GrowsIn M (fun a => a = BB) acc.2.2.visited
      (insts.foldl (scanInst M c BB) acc).2.2.visited := by
  induction insts generalizing acc with
  | nil => exact ⟨rfl, rfl, rfl, GrowsIn_refl _ _ _⟩
  | cons I r ih =>
    simp only [List.foldl_cons]
    obtain ⟨h1, h2, h3, h4⟩ := ih (scanInst M c BB acc I)
    obtain ⟨g1, g2, g3, g4⟩ := scanResolved_frame M c BB (getDebugLoc I acc.1 acc.2.1).1
      (getDebugLoc I acc.1 acc.2.1).2 acc.2.2
    exact ⟨h1.trans g1, h2.trans g2, h3.trans g3, GrowsIn_trans g4 h4⟩

theorem HasId_append {vec : List BlockInfo} {a x : Nat} (h : HasId vec a x)
    (ext : List BlockInfo) : HasId (vec ++ ext) a x := by
  obtain ⟨info, h1, h2⟩ := h
  exact ⟨info, by simp [getBlockInfo, List.find?_append, h1] at *; simp [h1], h2⟩

theorem Registered_append {vec : List BlockInfo} {a : Nat} (h : Registered vec a)
    (ext : List BlockInfo) : Registered (vec ++ ext) a := by
  obtain ⟨x, hx⟩ := h
  exact ⟨x, HasId_append hx ext⟩

theorem Registered_push (vec : List BlockInfo) (a x : Nat) :
    Registered (vec ++ [⟨a, x, []⟩]) a := by
  cases h : getBlockInfo vec a with
  | some info => exact Registered_append ⟨info.BlockId, info, h, rfl⟩ _
  | none =>
    refine ⟨x, ⟨a, x, []⟩, ?_, rfl⟩
    simp only [getBlockInfo] at h ⊢
    simp [List.find?_append, h]

theorem HasId_CurrentBBid {vec : List BlockInfo} {a : Nat} (h : Registered vec a) :
    HasId vec a (CurrentBBid vec a) := by
  obtain ⟨x, info, h1, _⟩ := h
  exact ⟨info, h1, by simp [CurrentBBid, h1]⟩

theorem scanBlock_frame (env : Env) (M : Module) (F : Function)
    (acc : List BasicBlock × PassState) (BB : BasicBlock) :
    (scanBlock env M F acc BB).2.fdom = acc.2.fdom ∧
    (∃ ext, (scanBlock env M F acc BB).2.AFLBlockInfoVec = acc.2.AFLBlockInfoVec ++ ext) ∧
    (Scanned M F BB → Registered (scanBlock env M F acc BB).2.AFLBlockInfoVec BB.addr) ∧
    (∀ B, B ∈ (scanBlock env M F acc BB).1 →
      B ∈ acc.1 ∨ (B = BB ∧ Registered (scanBlock env M F acc BB).2.AFLBlockInfoVec BB.addr)) ∧
    GrowsIn M (fun a => Scanned M F BB ∧ BB.addr = a) acc.2.visited
      (scanBlock env M F acc BB).2.visited := by
  unfold scanBlock
  split
  · rename_i hg
    refine ⟨rfl, ⟨[], by simp⟩, ?_, fun B hB => Or.inl hB, GrowsIn_refl _ _ _⟩
    intro hs
    rcases hs with h | h
    · exact absurd h hg.1
    · omega
  · rename_i hg
    have hs : Scanned M F BB := by
      unfold Scanned
      by_cases h : F.blocks.length = 1
      · exact Or.inl h
      · right
        by_contra h2
        exact hg ⟨h, by omega⟩
    simp only
    obtain ⟨h1, h2, _, h4⟩ := scanInsts_frame M (AFL_R env acc.2.draws) BB.addr BB.insts
      ([], 0, { acc.2 with
        draws := acc.2.draws + 1
        AFLBlockInfoVec := acc.2.AFLBlockInfoVec ++ [⟨BB.addr, AFL_R env acc.2.draws, []⟩] })
    have hreg : Registered (BB.insts.foldl (scanInst M (AFL_R env acc.2.draws) BB.addr)
        ([], 0, { acc.2 with
          draws := acc.2.draws + 1
          AFLBlockInfoVec := acc.2.AFLBlockInfoVec ++
            [⟨BB.addr, AFL_R env acc.2.draws, []⟩] })).2.2.AFLBlockInfoVec BB.addr := by
      rw [h1]
      exact Registered_push _ _ _
    refine ⟨h2, ⟨_, h1⟩, fun _ => hreg, ?_, GrowsIn_mono h4 (fun s hs2 => ⟨hs, hs2.symm⟩)⟩
    intro B hB
    rcases List.mem_append.1 hB with h | h
    · exact Or.inl h
    · right
      have : B = BB := by simpa using h
      exact ⟨this, hreg⟩

theorem scanBlocks_frame (env : Env) (M : Module) (F : Function) (blocks : List BasicBlock)
    (acc : List BasicBlock × PassState) :
    (blocks.foldl (scanBlock env M F) acc).2.fdom = acc.2.fdom ∧
    (∃ ext, (blocks.foldl (scanBlock env M F) acc).2.AFLBlockInfoVec =
      acc.2.AFLBlockInfoVec ++ ext) ∧
    (∀ B, B ∈ blocks → Scanned M F B →
      Registered (blocks.foldl (scanBlock env M F) acc).2.AFLBlockInfoVec B.addr) ∧
    (∀ B, B ∈ (blocks.foldl (scanBlock env M F) acc).1 →
      B ∈ acc.1 ∨
        (B ∈ blocks ∧ Registered (blocks.foldl (scanBlock env M F) acc).2.AFLBlockInfoVec B.addr)) ∧
    GrowsIn M (fun a => ∃ B, B ∈ blocks ∧ Scanned M F B ∧ B.addr = a) acc.2.visited
      (blocks.foldl (scanBlock env M F) acc).2.visited := by
  induction blocks generalizing acc with
  | nil => exact ⟨rfl, ⟨[], by simp⟩, by simp, fun B hB => Or.inl hB, GrowsIn_refl _ _ _⟩
  | cons X r ih =>
    simp only [List.foldl_cons]
    obtain ⟨a1, ⟨e1, a2⟩, a3, a4, a5⟩ := scanBlock_frame env M F acc X
    obtain ⟨b1, ⟨e2, b2⟩, b3, b4, b5⟩ := ih (scanBlock env M F acc X)
    refine ⟨b1.trans a1, ⟨e1 ++ e2, by rw [b2, a2, List.append_assoc]⟩, ?_, ?_, ?_⟩
    · intro B hB hs
      rcases List.mem_cons.1 hB with h | h
      · subst h
        rw [b2]
        exact Registered_append (a3 hs) _
      · exact b3 B h hs
    · intro B hB
      rcases b4 B hB with h | h
      · rcases a4 B h with h2 | h2
        · exact Or.inl h2
        · right
          refine ⟨by rw [h2.1]; exact List.mem_cons_self _ _, ?_⟩
          rw [b2, h2.1]
          exact Registered_append h2.2 _
      · exact Or.inr ⟨List.mem_cons_of_mem _ h.1, h.2⟩
    · exact GrowsIn_trans
        (GrowsIn_mono a5 (fun s hs => ⟨X, List.mem_cons_self _ _, hs.1, hs.2⟩))
        (GrowsIn_mono b5 (fun s hs => by
          obtain ⟨B, hB, h1, h2⟩ := hs
          exact ⟨B, List.mem_cons_of_mem _ hB, h1, h2⟩))

theorem splitLoop_frame (env : Env) (o c : Nat) (l : List Nat) (st : PassState) :
    (splitLoop env o c l st).AFLBlockInfoVec = st.AFLBlockInfoVec ∧
    (splitLoop env o c l st).visited = st.visited ∧
    ∀ r, r ∈ (splitLoop env o c l st).fdom →
      r ∈ st.fdom ∨ ∃ S, S ∈ l ∧ r.2.1 = c ∧ r.2.2 = SuccessorBBId st.AFLBlockInfoVec S := by
  induction l generalizing st with
  | nil => exact ⟨rfl, rfl, fun r hr => Or.inl hr⟩
  | cons S rest ih =>
    simp only [splitLoop]
    cases env.SplitEdge st.splits o S with
    | none =>
      obtain ⟨h1, h2, h3⟩ := ih (noteSplit st)
      refine ⟨h1, h2, fun r hr => ?_⟩
      rcases h3 r hr with h | ⟨S2, hS, h⟩
      · exact Or.inl h
      · exact Or.inr ⟨S2, List.mem_cons_of_mem _ hS, h⟩
    | some newBB =>
      obtain ⟨h1, h2, h3⟩ :=
        ih (recordEdge env newBB c (SuccessorBBId st.AFLBlockInfoVec S) (noteSplit st))
      refine ⟨h1, h2, fun r hr => ?_⟩
      rcases h3 r hr with h | ⟨S2, hS, h⟩
      · have h : r ∈ st.fdom ++
            [(AFL_R env st.draws, c, SuccessorBBId st.AFLBlockInfoVec S)] := h
        rcases List.mem_append.1 h with h | h
        · exact Or.inl h
        · right
          have : r = (AFL_R env st.draws, c, SuccessorBBId st.AFLBlockInfoVec S) := by
            simpa using h
          exact ⟨S, List.mem_cons_self _ _, by rw [this], by rw [this]⟩
      · exact Or.inr ⟨S2, List.mem_cons_of_mem _ hS, h⟩

theorem edgeIter_frame (env : Env) (M : Module) (F : Function) (B : BasicBlock)
    (st : PassState) :
    (edgeIter env M F B st).AFLBlockInfoVec = st.AFLBlockInfoVec ∧
    (edgeIter env M F B st).visited = st.visited ∧
    ∀ r, r ∈ (edgeIter env M F B st).fdom →
      r ∈ st.fdom ∨ (r.2.1 = CurrentBBid st.AFLBlockInfoVec B.addr ∧
        ((F.blocks.length = 1 ∧ r.2.2 = 0) ∨
          ∃ S, S ∈ B.succs ∧ r.2.2 = SuccessorBBId st.AFLBlockInfoVec S)) := by
  unfold edgeIter
  split
  · exact ⟨rfl, rfl, fun r hr => Or.inl hr⟩
  · split
    · rename_i hF
      refine ⟨rfl, rfl, fun r hr => ?_⟩
      have hr : r ∈ st.fdom ++
          [(AFL_R env st.draws, CurrentBBid st.AFLBlockInfoVec B.addr, 0)] := hr
      rcases List.mem_append.1 hr with h | h
      · exact Or.inl h
      · right
        have : r = (AFL_R env st.draws, CurrentBBid st.AFLBlockInfoVec B.addr, 0) := by
          simpa using h
        exact ⟨by rw [this], Or.inl ⟨hF, by rw [this]⟩⟩
    · split
      · exact ⟨rfl, rfl, fun r hr => Or.inl hr⟩
      · split
        · exact ⟨rfl, rfl, fun r hr => Or.inl hr⟩
        · obtain ⟨h1, h2, h3⟩ := splitLoop_frame env B.addr
            (CurrentBBid st.AFLBlockInfoVec B.addr) B.succs st
          refine ⟨h1, h2, fun r hr => ?_⟩
          rcases h3 r hr with h | ⟨S, hS, e1, e2⟩
          · exact Or.inl h
          · exact Or.inr ⟨e1, Or.inr ⟨S, hS, e2⟩⟩

theorem edgeLoop_frame (env : Env) (M : Module) (F : Function) (l : List BasicBlock)
    (st : PassState) :
    (l.foldl (fun st origBB => edgeIter env M F origBB st) st).AFLBlockInfoVec =
      st.AFLBlockInfoVec ∧
    (l.foldl (fun st origBB => edgeIter env M F origBB st) st).visited = st.visited ∧
    ∀ r, r ∈ (l.foldl (fun st origBB => edgeIter env M F origBB st) st).fdom →
      r ∈ st.fdom ∨ ∃ B, B ∈ l ∧ r.2.1 = CurrentBBid st.AFLBlockInfoVec B.addr ∧
        ((F.blocks.length = 1 ∧ r.2.2 = 0) ∨
          ∃ S, S ∈ B.succs ∧ r.2.2 = SuccessorBBId st.AFLBlockInfoVec S) := by
  induction l generalizing st with
  | nil => exact ⟨rfl, rfl, fun r hr => Or.inl hr⟩
  | cons X rest ih =>
    simp only [List.foldl_cons]
    obtain ⟨a1, a2, a3⟩ := edgeIter_frame env M F X st
    obtain ⟨b1, b2, b3⟩ := ih (edgeIter env M F X st)
    refine ⟨b1.trans a1, b2.trans a2, fun r hr => ?_⟩
    rcases b3 r hr with h | ⟨B, hB, h⟩
    · rcases a3 r h with h2 | h2
      · exact Or.inl h2
      · exact Or.inr ⟨X, List.mem_cons_self _ _, h2⟩
    · rw [a1] at h
      exact Or.inr ⟨B, List.mem_cons_of_mem _ hB, h⟩

/-! ## The edge loop -/

theorem splitLoop_fdom (env : Env) (o c : Nat) (l : List Nat) (st : PassState)
    (hsplit : ∀ n a b, (env.SplitEdge n a b).isSome) :
    (splitLoop env o c l st).fdom =
        st.fdom ++ (l.enumFrom st.draws).map
          (fun p => (AFL_R env p.1, c, SuccessorBBId st.AFLBlockInfoVec p.2)) ∧
      (splitLoop env o c l st).inst_blocks = st.inst_blocks + l.length := by
  induction l generalizing st with
  | nil => simp [splitLoop]
  | cons S r ih =>
    simp only [splitLoop]
    cases h : env.SplitEdge st.splits o S with
    | none => have := hsplit st.splits o S; rw [h] at this; simp at this
    | some newBB =>
      simp only
      have := ih (recordEdge env newBB c (SuccessorBBId st.AFLBlockInfoVec S) (noteSplit st))
      rw [this.1, this.2]
      simp only [recordEdge, noteSplit, List.enumFrom_cons, List.map_cons, List.append_assoc,
        List.singleton_append, List.length_cons]
      exact ⟨trivial, by omega⟩

theorem scanBlocks_InsBlocks (env : Env) (M : Module) (F : Function)
    (blocks : List BasicBlock) (acc : List BasicBlock × PassState) :
    (blocks.foldl (scanBlock env M F) acc).1 =
      acc.1 ++ blocks.filter
        (fun B => decide (F.blocks.length = 1 ∨ 1 ≤ realSuccs M B)) := by
  induction blocks generalizing acc with
  | nil => simp
  | cons X r ih =>
    simp only [List.foldl_cons]
    rw [ih]
    by_cases hg : F.blocks.length ≠ 1 ∧ realSuccs M X < 1
    · have hX : ¬ (F.blocks.length = 1 ∨ 1 ≤ realSuccs M X) := by
        rintro (h | h)
        · exact hg.1 h
        · omega
      have e : scanBlock env M F acc X = acc := by unfold scanBlock; rw [if_pos hg]
      rw [e]
      simp [List.filter_cons, hX]
    · have hX : F.blocks.length = 1 ∨ 1 ≤ realSuccs M X := by
        by_cases h : F.blocks.length = 1
        · exact Or.inl h
        · right
          by_contra h2
          exact hg ⟨h, by omega⟩
      have e : (scanBlock env M F acc X).1 = acc.1 ++ [X] := by
        unfold scanBlock; rw [if_neg hg]
      rw [e]
      simp [List.filter_cons, hX]

theorem foldl_skip {α β : Type} [DecidableEq β] (f : α → β → α) (b : β)
    (hb : ∀ a, f a b = a) (l : List β) (a : α) :
    l.foldl f a = (l.filter (fun x => decide (x ≠ b))).foldl f a := by
  induction l generalizing a with
  | nil => rfl
  | cons x r ih =>
    by_cases hx : x = b
    · subst hx
      simp only [List.foldl_cons, hb, List.filter_cons, ne_eq, not_true_eq_false,
        decide_False, Bool.false_eq_true, if_false]
      exact ih a
    · simp only [List.foldl_cons, List.filter_cons, ne_eq, hx, not_false_eq_true,
        decide_True, if_true]
      exact ih _

/-- C5. A block `B` with exactly one non-empty successor, in a function with
more than one block or not, is passed over by the edge loop: its iteration leaves
the whole state as it was (no edge record, no counted location, no random
draw), and the loop over any list of blocks gives the same result as the
loop over that list without `B`. -/
theorem single_successor_block_skipped (env : Env) (M : Module) (F : Function)
    (B : BasicBlock) (h1 : realSuccs M B = 1) :
    (∀ st, edgeIter env M F B st = st) ∧
    (∀ st, (edgeIter env M F B st).fdom = st.fdom ∧
      (edgeIter env M F B st).inst_blocks = st.inst_blocks) ∧
    (∀ InsBlocks st, edgeLoop env M F InsBlocks st =
      edgeLoop env M F (InsBlocks.filter (fun X => decide (X ≠ B))) st) := by
  have h : ∀ st, edgeIter env M F B st = st := by
    intro st; unfold edgeIter; simp [h1]
  refine ⟨h, fun st => by rw [h st]; exact ⟨rfl, rfl⟩, ?_⟩
  intro l st
  unfold edgeLoop
  rw [foldl_skip (fun st origBB => edgeIter env M F origBB st) B h l.reverse st,
    List.filter_reverse]

theorem single_successor_block_skipped_witness :
    realSuccs ⟨[branchFunction]⟩ ⟨2, [instAt a_c 5], [3], [1]⟩ = 1 ∧
    edgeIter sampleEnv ⟨[branchFunction]⟩ branchFunction ⟨2, [instAt a_c 5], [3], [1]⟩
      branchState = branchState :=
  ⟨by decide,
    (single_successor_block_skipped sampleEnv ⟨[branchFunction]⟩ branchFunction
      ⟨2, [instAt a_c 5], [3], [1]⟩ (by decide)).1 branchState⟩

theorem RecOf_append {M : Module} {F : Function} {vec : List BlockInfo}
    {r : Nat × Nat × Nat} (h : RecOf M F vec r) (ext : List BlockInfo) :
    RecOf M F (vec ++ ext) r := by
  obtain ⟨A, hA, h1, h2⟩ := h
  refine ⟨A, hA, HasId_append h1 ext, ?_⟩
  rcases h2 with h2 | ⟨S, hS, h3 | h3⟩
  · exact Or.inl h2
  · exact Or.inr ⟨S, hS, Or.inl (HasId_append h3 ext)⟩
  · exact Or.inr ⟨S, hS, Or.inr h3⟩

theorem runOnFunction_frame (env : Env) (M : Module) (st : PassState) (F : Function) :
    (∃ ext, (runOnFunction env M st F).AFLBlockInfoVec = st.AFLBlockInfoVec ++ ext) ∧
    (Processed F → ∀ B, B ∈ F.blocks → Scanned M F B →
      Registered (runOnFunction env M st F).AFLBlockInfoVec B.addr) ∧
    (∀ r, r ∈ (runOnFunction env M st F).fdom →
      r ∈ st.fdom ∨ RecOf M F (runOnFunction env M st F).AFLBlockInfoVec r) ∧
    GrowsIn M (fun a => Processed F ∧ ∃ B, B ∈ F.blocks ∧ Scanned M F B ∧ B.addr = a)
      st.visited (runOnFunction env M st F).visited := by
  unfold runOnFunction
  split
  · rename_i hp
    have hproc : Processed F := by
      simp only [Bool.and_eq_true, Bool.not_eq_true', List.isEmpty_eq_true] at hp
      exact ⟨hp.1, by simpa using hp.2⟩
    simp only
    obtain ⟨a1, ⟨ext, a2⟩, a3, a4, a5⟩ := scanBlocks_frame env M F F.blocks ([], st)
    obtain ⟨b1, b2, b3⟩ := edgeLoop_frame env M F
      (F.blocks.foldl (scanBlock env M F) ([], st)).1.reverse
      (F.blocks.foldl (scanBlock env M F) ([], st)).2
    unfold edgeLoop
    refine ⟨⟨ext, b1.trans a2⟩, ?_, ?_, ?_⟩
    · intro _ B hB hs
      rw [b1]
      exact a3 B hB hs
    · intro r hr
      rcases b3 r hr with h | ⟨B, hB, e1, e2⟩
      · left; rw [a1] at h; exact h
      · right
        rw [b1]
        have hB2 := a4 B (List.mem_reverse.1 hB)
        rcases hB2 with h | ⟨hBF, hreg⟩
        · simp at h
        · refine ⟨B, hBF, ?_, ?_⟩
          · rw [e1]; exact HasId_CurrentBBid hreg
          · rcases e2 with e2 | ⟨S, hS, e2⟩
            · exact Or.inl e2
            · right
              refine ⟨S, hS, ?_⟩
              cases hg : getBlockInfo (F.blocks.foldl (scanBlock env M F)
                  ([], st)).2.AFLBlockInfoVec S with
              | some sinfo =>
                left
                exact ⟨sinfo, hg, by rw [e2]; simp [SuccessorBBId, hg]⟩
              | none =>
                right
                refine ⟨by rw [e2]; simp [SuccessorBBId, hg], ?_⟩
                rintro ⟨B2, hB2, hadd, hreal⟩
                obtain ⟨x, info, h1, _⟩ := a3 B2 hB2 (Or.inr hreal)
                rw [hadd, hg] at h1
                exact Option.noConfusion h1
    · rw [b2]
      exact GrowsIn_mono a5 (fun s hs => ⟨hproc, hs⟩)
  · exact ⟨⟨[], by simp⟩, fun hp => by
      rename_i hn
      exfalso
      apply hn
      simp only [Bool.and_eq_true, Bool.not_eq_true', List.isEmpty_eq_true]
      exact ⟨hp.1, by simpa using hp.2⟩,
      fun r hr => Or.inl hr, GrowsIn_refl _ _ _⟩

theorem functions_frame (env : Env) (M : Module) (fs : List Function) (st : PassState) :
    (∃ ext, (fs.foldl (runOnFunction env M) st).AFLBlockInfoVec = st.AFLBlockInfoVec ++ ext) ∧
    (∀ F, F ∈ fs → Processed F → ∀ B, B ∈ F.blocks → Scanned M F B →
      Registered (fs.foldl (runOnFunction env M) st).AFLBlockInfoVec B.addr) ∧
    (∀ r, r ∈ (fs.foldl (runOnFunction env M) st).fdom →
      r ∈ st.fdom ∨ ∃ F, F ∈ fs ∧ RecOf M F (fs.foldl (runOnFunction env M) st).AFLBlockInfoVec r) ∧
    GrowsIn M (fun a => ∃ F, F ∈ fs ∧ Processed F ∧
        ∃ B, B ∈ F.blocks ∧ Scanned M F B ∧ B.addr = a)
      st.visited (fs.foldl (runOnFunction env M) st).visited := by
  induction fs generalizing st with
  | nil => exact ⟨⟨[], by simp⟩, by simp, fun r hr => Or.inl hr, GrowsIn_refl _ _ _⟩
  | cons X rest ih =>
    simp only [List.foldl_cons]
    obtain ⟨⟨e1, a1⟩, a2, a3, a4⟩ := runOnFunction_frame env M st X
    obtain ⟨⟨e2, b1⟩, b2, b3, b4⟩ := ih (runOnFunction env M st X)
    refine ⟨⟨e1 ++ e2, by rw [b1, a1, List.append_assoc]⟩, ?_, ?_, ?_⟩
    · intro F hF hp B hB hs
      rcases List.mem_cons.1 hF with h | h
      · subst h
        rw [b1]
        exact Registered_append (a2 hp B hB hs) _
      · exact b2 F h hp B hB hs
    · intro r hr
      rcases b3 r hr with h | ⟨F, hF, h⟩
      · rcases a3 r h with h2 | h2
        · exact Or.inl h2
        · right
          refine ⟨X, List.mem_cons_self _ _, ?_⟩
          rw [b1]
          exact RecOf_append h2 _
      · exact Or.inr ⟨F, List.mem_cons_of_mem _ hF, h⟩
    · exact GrowsIn_trans
        (GrowsIn_mono a4 (fun s hs => ⟨X, List.mem_cons_self _ _, hs⟩))
        (GrowsIn_mono b4 (fun s hs => by
          obtain ⟨F, hF, h⟩ := hs
          exact ⟨F, List.mem_cons_of_mem _ hF, h⟩))

theorem sinkLoop_frame (l : List Nat) (st : PassState) :
    (l.foldl sinkIter st).AFLBlockInfoVec = st.AFLBlockInfoVec ∧
    (l.foldl sinkIter st).visited = st.visited ∧
    (l.foldl sinkIter st).fdom = st.fdom ∧
    (l.foldl sinkIter st).sinks = st.sinks ++ l ∧
    (l.foldl sinkIter st).fdom2 = st.fdom2 ++
      l.filterMap (fun BB => (getBlockInfo st.AFLBlockInfoVec BB).map BlockInfo.BlockId) := by
  induction l generalizing st with
  | nil => simp
  | cons X rest ih =>
    simp only [List.foldl_cons]
    obtain ⟨h1, h2, h3, h4, h5⟩ := ih (sinkIter st X)
    have e1 : (sinkIter st X).AFLBlockInfoVec = st.AFLBlockInfoVec := by
      unfold sinkIter; cases getBlockInfo st.AFLBlockInfoVec X <;> rfl
    have e2 : (sinkIter st X).visited = st.visited := by
      unfold sinkIter; cases getBlockInfo st.AFLBlockInfoVec X <;> rfl
    have e3 : (sinkIter st X).fdom = st.fdom := by
      unfold sinkIter; cases getBlockInfo st.AFLBlockInfoVec X <;> rfl
    have e4 : (sinkIter st X).sinks = st.sinks ++ [X] := by
      unfold sinkIter; cases getBlockInfo st.AFLBlockInfoVec X <;> rfl
    have e5 : (sinkIter st X).fdom2 = st.fdom2 ++
        (match getBlockInfo st.AFLBlockInfoVec X with
          | some pbb => [pbb.BlockId]
          | none => []) := by
      unfold sinkIter; cases getBlockInfo st.AFLBlockInfoVec X <;> simp
    refine ⟨h1.trans e1, h2.trans e2, h3.trans e3, ?_, ?_⟩
    · rw [h4, e4]; simp
    · rw [h5, e5, e1]
      cases hg : getBlockInfo st.AFLBlockInfoVec X <;> simp [List.filterMap_cons, hg]

/-! ## The sink outputs are written by the last loop only -/

theorem targetsLoop_sinkOut (M : Module) (c BB : Nat) (fn : Str) (ln : Nat) (l : List Str)
    (st : PassState) :
    (targetsLoop M c BB fn ln l st).2.fdom2 = st.fdom2 ∧
    (targetsLoop M c BB fn ln l st).2.sinks = st.sinks := by
  induction l generalizing st with
  | nil => exact ⟨rfl, rfl⟩
  | cons a r ih =>
    simp only [targetsLoop]
    split
    · exact ih (recordTarget M c BB fn ln st)
    · exact ih st

theorem scanInsts_sinkOut (M : Module) (c BB : Nat) (insts : List Instruction)
    (acc : Str × Nat × PassState) :
    (insts.foldl (scanInst M c BB) acc).2.2.fdom2 = acc.2.2.fdom2 ∧
    (insts.foldl (scanInst M c BB) acc).2.2.sinks = acc.2.2.sinks := by
  induction insts generalizing acc with
  | nil => exact ⟨rfl, rfl⟩
  | cons I r ih =>
    simp only [List.foldl_cons]
    obtain ⟨h1, h2⟩ := ih (scanInst M c BB acc I)
    have g : (scanInst M c BB acc I).2.2.fdom2 = acc.2.2.fdom2 ∧
        (scanInst M c BB acc I).2.2.sinks = acc.2.2.sinks := by
      unfold scanInst scanResolved
      simp only
      split
      · exact ⟨rfl, rfl⟩
      · exact targetsLoop_sinkOut M c BB _ _ acc.2.2.targets acc.2.2
    exact ⟨h1.trans g.1, h2.trans g.2⟩

theorem scanBlocks_sinkOut (env : Env) (M : Module) (F : Function) (blocks : List BasicBlock)
    (acc : List BasicBlock × PassState) :
    (blocks.foldl (scanBlock env M F) acc).2.fdom2 = acc.2.fdom2 ∧
    (blocks.foldl (scanBlock env M F) acc).2.sinks = acc.2.sinks := by
  induction blocks generalizing acc with
  | nil => exact ⟨rfl, rfl⟩
  | cons X r ih =>
    simp only [List.foldl_cons]
    obtain ⟨h1, h2⟩ := ih (scanBlock env M F acc X)
    have g : (scanBlock env M F acc X).2.fdom2 = acc.2.fdom2 ∧
        (scanBlock env M F acc X).2.sinks = acc.2.sinks := by
      unfold scanBlock
      split
      · exact ⟨rfl, rfl⟩
      · exact scanInsts_sinkOut M _ _ X.insts _
    exact ⟨h1.trans g.1, h2.trans g.2⟩

theorem splitLoop_sinkOut (env : Env) (o c : Nat) (l : List Nat) (st : PassState) :
    (splitLoop env o c l st).fdom2 = st.fdom2 ∧ (splitLoop env o c l st).sinks = st.sinks := by
  induction l generalizing st with
  | nil => exact ⟨rfl, rfl⟩
  | cons S rest ih =>
    simp only [splitLoop]
    cases env.SplitEdge st.splits o S with
    | none => exact ih (noteSplit st)
    | some newBB =>
      exact ih (recordEdge env newBB c (SuccessorBBId st.AFLBlockInfoVec S) (noteSplit st))

theorem edgeLoop_sinkOut (env : Env) (M : Module) (F : Function) (l : List BasicBlock)
    (st : PassState) :
    (l.foldl (fun st origBB => edgeIter env M F origBB st) st).fdom2 = st.fdom2 ∧
    (l.foldl (fun st origBB => edgeIter env M F origBB st) st).sinks = st.sinks := by
  induction l generalizing st with
  | nil => exact ⟨rfl, rfl⟩
  | cons X rest ih =>
    simp only [List.foldl_cons]
    obtain ⟨h1, h2⟩ := ih (edgeIter env M F X st)
    have g : (edgeIter env M F X st).fdom2 = st.fdom2 ∧
        (edgeIter env M F X st).sinks = st.sinks := by
      unfold edgeIter
      split
      · exact ⟨rfl, rfl⟩
      · split
        · exact ⟨rfl, rfl⟩
        · split
          · exact ⟨rfl, rfl⟩
          · split
            · exact ⟨rfl, rfl⟩
            · exact splitLoop_sinkOut env _ _ _ st
    exact ⟨h1.trans g.1, h2.trans g.2⟩

theorem runOnFunction_sinkOut (env : Env) (M : Module) (st : PassState) (F : Function) :
    (runOnFunction env M st F).fdom2 = st.fdom2 ∧
    (runOnFunction env M st F).sinks = st.sinks := by
  unfold runOnFunction
  split
  · simp only
    unfold edgeLoop
    obtain ⟨h1, h2⟩ := edgeLoop_sinkOut env M F
      (F.blocks.foldl (scanBlock env M F) ([], st)).1.reverse
      (F.blocks.foldl (scanBlock env M F) ([], st)).2
    obtain ⟨g1, g2⟩ := scanBlocks_sinkOut env M F F.blocks ([], st)
    exact ⟨h1.trans g1, h2.trans g2⟩
  · exact ⟨rfl, rfl⟩

theorem functions_sinkOut (env : Env) (M : Module) (fs : List Function) (st : PassState) :
    (fs.foldl (runOnFunction env M) st).fdom2 = st.fdom2 ∧
    (fs.foldl (runOnFunction env M) st).sinks = st.sinks := by
  induction fs generalizing st with
  | nil => exact ⟨rfl, rfl⟩
  | cons X r ih =>
    simp only [List.foldl_cons]
    obtain ⟨h1, h2⟩ := ih (runOnFunction env M st X)
    obtain ⟨g1, g2⟩ := runOnFunction_sinkOut env M st X
    exact ⟨h1.trans g1, h2.trans g2⟩

/-! ## The edge map and the reachable blocks of a whole run -/

/-- C2, as the code behaves: a counterexample to the round trip.  A function
with a single block and no control-flow edge writes one record; and in a
function with several blocks the record of an edge into a block that was not
registered carries `0`, which is the id of no block. -/
theorem edge_map_round_trip_fails :
    ¬ EdgeMapRoundTrip (oneBlockModule [instAt a_c 3])
        (runOnModule sampleEnv (oneBlockModule [instAt a_c 3]) [] []) ∧
    ¬ EdgeMapRoundTrip ⟨[branchFunction]⟩
        (runOnModule sampleEnv ⟨[branchFunction]⟩ [] []) := by
  constructor
  · intro h
    obtain ⟨A, hA, B, _, _, _, h3⟩ := h (101, 100, 0) (by decide)
    have hA2 : A = ⟨1, [instAt a_c 3], [], []⟩ := by
      simpa [oneBlockModule, Module.allBlocks] using hA
    rw [hA2] at h3
    simp at h3
  · intro h
    obtain ⟨A, _, B, hB, _, ⟨info, h2, h2b⟩, _⟩ := h (103, 100, 0) (by decide)
    have hvec : (runOnModule sampleEnv ⟨[branchFunction]⟩ [] []).AFLBlockInfoVec =
        [⟨1, 100, []⟩, ⟨2, 101, []⟩] := by decide
    rw [hvec] at h2
    have hmem := List.mem_of_find?_eq_some h2
    have : info.BlockId ≠ 0 := by
      rcases List.mem_cons.1 hmem with e | hmem
      · rw [e]; decide
      · rcases List.mem_cons.1 hmem with e | hmem
        · rw [e]; decide
        · simp at hmem
    exact this h2b

/-- C2, amended.  Every record `(edge_id, from, to)` of the edge map was
written for a block `A` of a function `F` of the module: `from` is the
registered id of `A`, and either `F` has a single block and `to` is `0`, or
`to` belongs to a direct successor `S` of `A` in the function as given to the
pass: it is the registered id of `S`, or it is `0` and `S` is not a block of
`F` with a non-empty successor. -/
theorem edge_map_records_from_edges (env : Env) (M : Module) (lines : List Str)
    (visited : List Nat) :
    ∀ r, r ∈ (runOnModule env M lines visited).fdom →
      ∃ F, F ∈ M.functions ∧
        RecOf M F (runOnModule env M lines visited).AFLBlockInfoVec r := by
  intro r hr
  unfold runOnModule at hr ⊢
  simp only at hr ⊢
  obtain ⟨s1, _, s3, _, _⟩ := sinkLoop_frame
    (instrumentModule env M (initState lines visited)).visited
    (instrumentModule env M (initState lines visited))
  rw [s3] at hr
  rw [s1]
  obtain ⟨_, _, f3, _⟩ := functions_frame env M M.functions (initState lines visited)
  rcases f3 r hr with h | h
  · simp [initState] at h
  · exact h

theorem find_of_nodup (L : List BasicBlock) (h : (L.map BasicBlock.addr).Nodup)
    (B : BasicBlock) (hB : B ∈ L) : L.find? (fun b => b.addr == B.addr) = some B := by
  induction L with
  | nil => simp at hB
  | cons X r ih =>
    simp only [List.map_cons, List.nodup_cons] at h
    rcases List.mem_cons.1 hB with e | hm
    · subst e; simp
    · have hne : X.addr ≠ B.addr := by
        intro e
        exact h.1 (by rw [e]; exact List.mem_map_of_mem _ hm)
      have : (X.addr == B.addr) = false := by simp [hne]
      simp only [List.find?_cons, this]
      exact ih h.2 hm

theorem mem_allBlocks (M : Module) (F : Function) (hF : F ∈ M.functions) (B : BasicBlock)
    (hB : B ∈ F.blocks) : B ∈ M.allBlocks := by
  unfold Module.allBlocks
  exact List.mem_flatten.2 ⟨F.blocks, List.mem_map_of_mem _ hF, hB⟩

theorem filterMap_ids (vec : List BlockInfo) (l : List Nat)
    (h : ∀ b, b ∈ l → Registered vec b) :
    List.Forall₂ (fun b x => HasId vec b x) l
      (l.filterMap (fun BB => (getBlockInfo vec BB).map BlockInfo.BlockId)) := by
  induction l with
  | nil => simp
  | cons X r ih =>
    obtain ⟨x, info, h1, h2⟩ := h X (List.mem_cons_self _ _)
    simp only [List.filterMap_cons, h1, Option.map_some']
    exact List.Forall₂.cons ⟨info, h1, rfl⟩ (ih (fun b hb => h b (List.mem_cons_of_mem _ hb)))

/-- C10. Every block in the reachable set is registered.  For a module whose
blocks are all non-empty, whose blocks have distinct addresses and in which
every predecessor of a block is a block of the same function that has it as
a successor, and with `visited` empty at the start: every block in `visited`
when the sink loop starts has a record in `AFLBlockInfoVec`; so the
reachable-block output holds, block by block of `visited`, the registered id
of that block, one line each, `visited` holds no block twice, and the sink is
put into exactly the blocks of `visited`. -/
theorem reachable_blocks_registered (env : Env) (M : Module) (lines : List Str)
    (hne : ∀ B, B ∈ M.allBlocks → B.insts ≠ [])
    (huniq : (M.allBlocks.map BasicBlock.addr).Nodup)
    (hinv : ∀ F, F ∈ M.functions → ∀ B, B ∈ F.blocks → ∀ p, p ∈ B.preds →
      ∃ P, P ∈ F.blocks ∧ P.addr = p ∧ B.addr ∈ P.succs) :
    (∀ b, b ∈ (instrumentModule env M (initState lines [])).visited →
      Registered (instrumentModule env M (initState lines [])).AFLBlockInfoVec b) ∧
    (runOnModule env M lines []).visited =
      (instrumentModule env M (initState lines [])).visited ∧
    (runOnModule env M lines []).visited.Nodup ∧
    List.Forall₂ (fun b x => HasId (runOnModule env M lines []).AFLBlockInfoVec b x)
      (runOnModule env M lines []).visited (runOnModule env M lines []).fdom2 ∧
    (runOnModule env M lines []).fdom2.length = (runOnModule env M lines []).visited.length ∧
    (runOnModule env M lines []).sinks = (runOnModule env M lines []).visited := by
  obtain ⟨_, f2, _, f4⟩ := functions_frame env M M.functions (initState lines [])
  have hreg : ∀ b, b ∈ (instrumentModule env M (initState lines [])).visited →
      Registered (instrumentModule env M (initState lines [])).AFLBlockInfoVec b := by
    intro b hb
    have hP := f4.2 (fun a => ∃ F, F ∈ M.functions ∧ Processed F ∧
        ∃ B, B ∈ F.blocks ∧ Scanned M F B ∧ B.addr = a) ?_ (fun s hs => hs)
      (by intro x hx; simp [initState] at hx) b hb
    · obtain ⟨F, hF, hp, B, hB, hs, e⟩ := hP
      rw [← e]
      exact f2 F hF hp B hB hs
    · rintro x ⟨F, hF, hp, B, hB, _, e⟩ p hp2
      have hfind : M.find x = some B := by
        unfold Module.find
        rw [← e]
        exact find_of_nodup M.allBlocks huniq B (mem_allBlocks M F hF B hB)
      have hp3 : p ∈ B.preds := by simpa [Module.preds, hfind] using hp2
      obtain ⟨P, hP1, hP2, hP3⟩ := hinv F hF B hB p hp3
      refine ⟨F, hF, hp, P, hP1, Or.inr ?_, hP2⟩
      unfold realSuccs
      apply List.countP_pos_iff.2
      refine ⟨B.addr, hP3, ?_⟩
      have hsz : M.size B.addr = B.insts.length := by
        rw [e]; simp [Module.size, hfind]
      have := hne B (mem_allBlocks M F hF B hB)
      simp only [decide_eq_true_eq, hsz]
      exact List.length_pos.2 this
  have hnd : (instrumentModule env M (initState lines [])).visited.Nodup :=
    f4.1 (by simp [initState])
  obtain ⟨s1, s2, _, s4, s5⟩ := sinkLoop_frame
    (instrumentModule env M (initState lines [])).visited
    (instrumentModule env M (initState lines []))
  have hfd2 : (instrumentModule env M (initState lines [])).fdom2 = [] :=
    (functions_sinkOut env M M.functions (initState lines [])).1
  have hsk : (instrumentModule env M (initState lines [])).sinks = [] :=
    (functions_sinkOut env M M.functions (initState lines [])).2
  have hF2 := filterMap_ids (instrumentModule env M (initState lines [])).AFLBlockInfoVec
    (instrumentModule env M (initState lines [])).visited hreg
  refine ⟨hreg, s2, ?_, ?_, ?_, ?_⟩
  · unfold runOnModule; simp only; rw [s2]; exact hnd
  · unfold runOnModule; simp only; rw [s1, s2, s5, hfd2, List.nil_append]; exact hF2
  · unfold runOnModule; simp only; rw [s2, s5, hfd2, List.nil_append]
    exact (List.Forall₂.length_eq hF2).symm
  · unfold runOnModule; simp only; rw [s2, s4, hsk, List.nil_append]

theorem edge_map_records_from_edges_witness :
    ((103, 100, 0) : Nat × Nat × Nat) ∈
        (runOnModule sampleEnv ⟨[branchFunction]⟩ [] []).fdom ∧
      ∃ F, F ∈ (⟨[branchFunction]⟩ : Module).functions ∧
        RecOf ⟨[branchFunction]⟩ F
          (runOnModule sampleEnv ⟨[branchFunction]⟩ [] []).AFLBlockInfoVec (103, 100, 0) :=
  ⟨by decide,
    edge_map_records_from_edges sampleEnv ⟨[branchFunction]⟩ [] [] (103, 100, 0) (by decide)⟩

theorem reachable_blocks_registered_witness :
    ((∀ B, B ∈ scenarioModule.allBlocks → B.insts ≠ []) ∧
      (scenarioModule.allBlocks.map BasicBlock.addr).Nodup ∧
      (∀ F, F ∈ scenarioModule.functions → ∀ B, B ∈ F.blocks → ∀ p, p ∈ B.preds →
        ∃ P, P ∈ F.blocks ∧ P.addr = p ∧ B.addr ∈ P.succs)) ∧
    (runOnModule sampleEnv scenarioModule [a_c_5] []).visited = [1, 2] ∧
    List.Forall₂ (fun b x => HasId (runOnModule sampleEnv scenarioModule [a_c_5] []).AFLBlockInfoVec b x)
      (runOnModule sampleEnv scenarioModule [a_c_5] []).visited
      (runOnModule sampleEnv scenarioModule [a_c_5] []).fdom2 :=
  ⟨⟨by decide, by decide, by decide⟩, by decide,
    (reachable_blocks_registered sampleEnv scenarioModule [a_c_5] (by decide) (by decide)
      (by decide)).2.2.2.1⟩

/-- C8. The end-to-end scenario.  With the single target line `a.c:5` and
the function `B1 -> B2 -> B3` whose block `B2` is at `a.c:5`, whatever the
random draws and the edge splitter: `TargetBBid` contains the registered id
of `B2`, `visited` is exactly `B1, B2`, the sink is put into `B1` and `B2`
and not into `B3`, and the reachable-block output holds the registered ids
of `B1` and `B2`. -/
theorem scenario_a_c_5 (env : Env) :
    HasId (runOnModule env scenarioModule [a_c_5] []).AFLBlockInfoVec 1 (AFL_R env 0) ∧
    HasId (runOnModule env scenarioModule [a_c_5] []).AFLBlockInfoVec 2 (AFL_R env 1) ∧
    AFL_R env 1 ∈ (runOnModule env scenarioModule [a_c_5] []).TargetBBid ∧
    (runOnModule env scenarioModule [a_c_5] []).visited = [1, 2] ∧
    (runOnModule env scenarioModule [a_c_5] []).sinks = [1, 2] ∧
    3 ∉ (runOnModule env scenarioModule [a_c_5] []).sinks ∧
    (runOnModule env scenarioModule [a_c_5] []).fdom2 = [AFL_R env 0, AFL_R env 1] := by
  have hvec : (runOnModule env scenarioModule [a_c_5] []).AFLBlockInfoVec =
      [⟨1, AFL_R env 0, []⟩, ⟨2, AFL_R env 1, []⟩] := by rfl
  have htb : (runOnModule env scenarioModule [a_c_5] []).TargetBBid =
      [AFL_R env 1, AFL_R env 1] := by rfl
  have hsk : (runOnModule env scenarioModule [a_c_5] []).sinks = [1, 2] := by rfl
  refine ⟨?_, ?_, ?_, by rfl, hsk, ?_, by rfl⟩
  · rw [hvec]; exact ⟨⟨1, AFL_R env 0, []⟩, rfl, rfl⟩
  · rw [hvec]; exact ⟨⟨2, AFL_R env 1, []⟩, rfl, rfl⟩
  · rw [htb]; exact List.mem_cons_self _ _
  · rw [hsk]; decide

/-! ## A splitter that leaves the function as it is

With a `Rewire` that returns the body unchanged, the loop on the rewritten
function is the loop on the function as handed to the pass. -/

theorem splitLoopLive_unrewritten (env : Env) (o c : Nat) (l : List Nat) (F : Function)
    (st : PassState) :
    splitLoopLive env (fun _ G _ _ => G) o c l (F, st) = (F, splitLoop env o c l st) := by
  induction l generalizing st with
  | nil => rfl
  | cons S r ih =>
    simp only [splitLoopLive, splitLoop]
    cases env.SplitEdge st.splits o S with
    | none => exact ih _
    | some newBB => exact ih _

theorem Function_find_of_nodup (M : Module) (huniq : (M.allBlocks.map BasicBlock.addr).Nodup)
    (F : Function) (hF : F ∈ M.functions) (B : BasicBlock) (hB : B ∈ F.blocks) :
    F.find B.addr = some B := by
  have hsub : List.Sublist (F.blocks.map BasicBlock.addr) (M.allBlocks.map BasicBlock.addr) :=
    (List.sublist_flatten_of_mem (List.mem_map_of_mem Function.blocks hF)).map _
  exact find_of_nodup F.blocks (huniq.sublist hsub) B hB

theorem liveSize_unrewritten (M : Module) (huniq : (M.allBlocks.map BasicBlock.addr).Nodup)
    (F : Function) (hF : F ∈ M.functions) (S : Nat) : liveSize M F S = M.size S := by
  unfold liveSize
  cases h : F.find S with
  | none => rfl
  | some b =>
    have hb : b ∈ F.blocks := List.mem_of_find?_eq_some h
    have ha : b.addr = S := by simpa using List.find?_some h
    have : M.find S = some b := by
      unfold Module.find
      rw [← ha]
      exact find_of_nodup M.allBlocks huniq b (mem_allBlocks M F hF b hb)
    simp [Module.size, this]

theorem edgeIterLive_unrewritten (env : Env) (M : Module)
    (huniq : (M.allBlocks.map BasicBlock.addr).Nodup) (F : Function) (hF : F ∈ M.functions)
    (B : BasicBlock) (hB : B ∈ F.blocks) (st : PassState) :
    edgeIterLive env (fun _ G _ _ => G) M (F, st) B.addr = (F, edgeIter env M F B st) := by
  have hsucc : liveSuccs F B.addr = B.succs := by
    simp [liveSuccs, Function_find_of_nodup M huniq F hF B hB]
  have hreal : liveRealSuccs M F B.addr = realSuccs M B := by
    unfold liveRealSuccs realSuccs
    rw [hsucc]
    congr 1
    funext S
    rw [liveSize_unrewritten M huniq F hF S]
  unfold edgeIterLive edgeIter
  simp only [hreal, hsucc]
  split
  · rfl
  · split
    · rfl
    · split
      · rfl
      · split
        · rfl
        · exact splitLoopLive_unrewritten env _ _ _ F st

theorem edgeItersLive_unrewritten (env : Env) (M : Module)
    (huniq : (M.allBlocks.map BasicBlock.addr).Nodup) (F : Function) (hF : F ∈ M.functions)
    (l : List BasicBlock) (hl : ∀ B, B ∈ l → B ∈ F.blocks) (st : PassState) :
    (l.map BasicBlock.addr).foldl (edgeIterLive env (fun _ G _ _ => G) M) (F, st) =
      (F, l.foldl (fun st origBB => edgeIter env M F origBB st) st) := by
  induction l generalizing st with
  | nil => rfl
  | cons X r ih =>
    simp only [List.map_cons, List.foldl_cons]
    rw [edgeIterLive_unrewritten env M huniq F hF X (hl X (List.mem_cons_self _ _)) st]
    exact ih (fun B hB => hl B (List.mem_cons_of_mem _ hB)) _

theorem runOnFunctionLive_unrewritten (env : Env) (M : Module)
    (huniq : (M.allBlocks.map BasicBlock.addr).Nodup) (F : Function) (hF : F ∈ M.functions)
    (st : PassState) :
    runOnFunctionLive env (fun _ G _ _ => G) M st F = runOnFunction env M st F := by
  unfold runOnFunctionLive runOnFunction
  split
  · simp only
    unfold edgeLoopLive edgeLoop
    rw [← List.map_reverse]
    rw [edgeItersLive_unrewritten env M huniq F hF]
    intro B hB
    have hB2 : B ∈ (F.blocks.foldl (scanBlock env M F) ([], st)).1 := List.mem_reverse.1 hB
    rw [scanBlocks_InsBlocks] at hB2
    simp only [List.nil_append] at hB2
    exact (List.mem_filter.1 hB2).1
  · rfl

/-- With a splitter that leaves every function as it is, and blocks at
distinct addresses, the run that re-reads the function after every split is
the run on the functions as handed to the pass. -/
theorem runOnModuleLive_unrewritten (env : Env) (M : Module) (lines : List Str)
    (visited : List Nat) (huniq : (M.allBlocks.map BasicBlock.addr).Nodup) :
    runOnModuleLive env (fun _ G _ _ => G) M lines visited =
      runOnModule env M lines visited := by
  have h : ∀ (fs : List Function), (∀ F, F ∈ fs → F ∈ M.functions) → ∀ st,
      fs.foldl (runOnFunctionLive env (fun _ G _ _ => G) M) st =
        fs.foldl (runOnFunction env M) st := by
    intro fs
    induction fs with
    | nil => intro _ st; rfl
    | cons X r ih =>
      intro hfs st
      simp only [List.foldl_cons]
      rw [runOnFunctionLive_unrewritten env M huniq X (hfs X (List.mem_cons_self _ _)) st]
      exact ih (fun F hF => hfs F (List.mem_cons_of_mem _ hF)) _
  unfold runOnModuleLive runOnModule instrumentModule
  rw [h M.functions (fun F hF => hF)]

/-! ## The edge loop on the rewritten function -/

end PDGF
